import Mathlib

/-!
Verification of the CIwA structured consensus engine (collect-intel/ciwa).

This file shallowly embeds the parts of the Python source that the checked
properties are about:

* `ciwa/models/voting_methods/{enum_label,score_label,ranking_compare,score_compare}.py`
  — the `process_votes` reductions;
* `ciwa/models/voting_results.py` — `LabelVotingResults` / `CompareVotingResults`
  state and `add_vote`;
* `ciwa/models/voting_manager.py` — vote collection (schema gate) and
  `get_results`;
* `ciwa/models/participants/llm_agent_participant.py` —
  `send_prompt_with_retries` and `create_submission`;
* `ciwa/models/topic.py` — `Topic.add_submission`;
* `ciwa/models/session.py` — `gather_submissions` (as a small interleaving
  model of the asyncio scheduling it relies on).

Python dicts are modelled as association lists in insertion order (Python
dicts preserve insertion order; assignment to an existing key keeps its
position).  JSON values are modelled by the inductive `JsonVal`.  Machine
floats only appear in the source through `round(total / count, 3)`; that
value is modelled exactly as an integer count of thousandths computed by
round-half-to-even (`pyRound3Milli`), which is Python's rounding mode.
Operations that can raise in Python (`KeyError`, `ZeroDivisionError`) are
modelled in the `Option` monad, `none` meaning the Python code raises.
-/

namespace Ciwa

/-- JSON values, as far as the engine inspects them. -/
inductive JsonVal : Type
  | null : JsonVal
  | bool : Bool → JsonVal
  | int : ℤ → JsonVal
  | str : String → JsonVal
  | arr : List JsonVal → JsonVal
  | obj : List (String × JsonVal) → JsonVal

/-- A Python dict with string keys (e.g. a vote payload). -/
abbrev Payload := List (String × JsonVal)

/-- `d[k]` lookup on an insertion-ordered dict: first binding of `k`. -/
def aget? {κ α : Type _} [DecidableEq κ] : List (κ × α) → κ → Option α
  | [], _ => none
  | kv :: rest, k => if kv.1 = k then some kv.2 else aget? rest k

/-- `k in d` on an insertion-ordered dict. -/
def ahas {κ α : Type _} [DecidableEq κ] : List (κ × α) → κ → Bool
  | [], _ => false
  | kv :: rest, k => if kv.1 = k then true else ahas rest k

/-- `d[k] = v` on an insertion-ordered dict: an existing key keeps its
position, a new key is appended at the end (Python dict semantics). -/
def aset {κ α : Type _} [DecidableEq κ] (d : List (κ × α)) (k : κ) (v : α) :
    List (κ × α) :=
  if ahas d k then d.map (fun kv => if kv.1 = k then (k, v) else kv)
  else d ++ [(k, v)]

/-- `d[k] += δ` on an int-valued dict: raises `KeyError` (= `none`) when the
key is absent. -/
def abump {κ : Type _} [DecidableEq κ] (d : List (κ × ℤ)) (k : κ) (δ : ℤ) :
    Option (List (κ × ℤ)) :=
  if ahas d k then some (d.map (fun kv => if kv.1 = k then (kv.1, kv.2 + δ) else kv))
  else none

/-- Keys of an association list, in order. -/
def akeys {κ α : Type _} [DecidableEq κ] (d : List (κ × α)) : List κ :=
  d.map Prod.fst

/-- Round `a / b` (with `b > 0`) to the nearest integer, ties to even:
Python's rounding mode. `/` and `%` on `ℤ` are Euclidean here, so for
`b > 0` the quotient is the floor and `0 ≤ a % b < b`. -/
def halfEvenDiv (a b : ℤ) : ℤ :=
  if 2 * (a % b) < b then a / b
  else if b < 2 * (a % b) then a / b + 1
  else if (a / b) % 2 = 0 then a / b else a / b + 1

/-- `round(num / den, 3)` scaled by 1000: the aggregate values the voting
methods emit, represented exactly as a count of thousandths. -/
def pyRound3Milli (num den : ℤ) : ℤ := halfEvenDiv (1000 * num) den

/-!
## Voting method reductions

Translated from `ciwa/models/voting_methods/enum_label.py`,
`score_label.py`, `ranking_compare.py` and `score_compare.py`
(`process_votes` plus, for the compare methods, the
`submission_index_map` built by `get_vote_prompt`).
-/
/-- `LabelVotingResults.votes_data`: submission uuid ↦ (participant uuid ↦
vote payload). -/
abbrev LabelVotesData := List (String × List (String × Payload))

/-- `CompareVotingResults.votes_data`: participant uuid ↦ vote payload. -/
abbrev CompareVotesData := List (String × Payload)

/-- `EnumLabel.process_votes`.  Per-submission counts, zero-filled over
`enum_values`, then one increment per recorded vote:
`results[submission_id][vote["vote"]] += 1`.  A vote for a submission id
that is not in `submission_ids`, a payload with no `"vote"` key, and a
vote value outside `enum_values` all raise `KeyError` (`none` here); a
non-string vote value is not a key of the string-keyed counts dict and
raises `KeyError` as well. -/
def enumVoteStep (results : List (String × List (String × ℤ)))
    (sid : String) (pv : String × Payload) :
    Option (List (String × List (String × ℤ))) :=
  match aget? pv.2 "vote" with
  | some (JsonVal.str s) => do
      let counts ← aget? results sid
      let counts2 ← abump counts s 1
      pure (aset results sid counts2)
  | _ => none

def enumLabelProcessVotes (enumValues : List String)
    (votesData : LabelVotesData) (submissionIds : List String) :
    Option (List (String × List (String × ℤ))) :=
  votesData.foldlM
    (fun results entry =>
      entry.2.foldlM (fun r pv => enumVoteStep r entry.1 pv) results)
    (submissionIds.map (fun sid => (sid, enumValues.map (fun v => (v, (0 : ℤ))))))

/-- `YesNoLabel` is `EnumLabel(["yes", "no"])`. -/
def yesNoLabelProcessVotes : LabelVotesData → List String →
    Option (List (String × List (String × ℤ))) :=
  enumLabelProcessVotes ["yes", "no"]

/-- `ScoreLabel.process_votes`.  For each eligible submission id:
`scores = [vote["vote"] for vote in votes_data.get(sid, {}).values()]`,
then `{"average_score": round(sum(scores)/len(scores), 3) if scores else
None}`.  The resulting value is the `average_score` field: `none` for no
votes, otherwise the mean in thousandths.  A payload with no `"vote"`
key raises `KeyError` (`none` overall); the vote schema makes every
recorded vote value an integer, non-integer values are outside the
embedding. -/
def scoreLabelProcessVotes (votesData : LabelVotesData)
    (submissionIds : List String) : Option (List (String × Option ℤ)) :=
  submissionIds.mapM (fun sid => do
    let votes := (aget? votesData sid).getD []
    let scores ← votes.mapM (fun pv =>
      match aget? pv.2 "vote" with
      | some (JsonVal.int n) => some n
      | _ => none)
    pure (sid, if scores.isEmpty then none
          else some (pyRound3Milli scores.sum (scores.length : ℤ))))

/-- `submission_index_map` as built by the compare methods'
`get_vote_prompt`: `{i + 1: submissions[i].uuid}`. -/
def submissionIndexMap (ids : List String) : List (ℤ × String) :=
  ((List.range ids.length).zip ids).map (fun p => ((p.1 : ℤ) + 1, p.2))

/-- Shared tail of the compare reductions:
`results = {sid: round(total / voter_count, 3) for sid, total in
sorted(total_scores.items(), key=lambda item: item[1])}`.
Python's `sorted` is the stable ascending sort, i.e. `insertionSort` on
the second component.  The comprehension over an empty dict never
divides; otherwise `voter_count = 0` raises `ZeroDivisionError`
(`none`). -/
def compareSortRound (totals : List (String × ℤ)) (voterCount : ℕ) :
    Option (List (String × ℤ)) :=
  if totals.isEmpty then some []
  else if voterCount = 0 then none
  else some ((List.insertionSort (fun a b => a.2 ≤ b.2) totals).map
      (fun st => (st.1, pyRound3Milli st.2 (voterCount : ℤ))))

/-- Inner loop of `RankingCompare.process_votes`:
`for rank, index in enumerate(vote_data["vote"]):
total_scores[submission_index_map[index]] += rank`.  An index that is
not a key of the map, or a mapped id absent from `total_scores`, raises
`KeyError` (`none`); a non-integer entry is likewise not a key of the
integer-keyed map. -/
def rankingApplyVote (indexMap : List (ℤ × String)) :
    List JsonVal → ℕ → List (String × ℤ) → Option (List (String × ℤ))
  | [], _, totals => some totals
  | item :: rest, rank, totals => do
      let idx ← (match item with | JsonVal.int n => some n | _ => none)
      let sid ← aget? indexMap idx
      let totals ← abump totals sid (rank : ℤ)
      rankingApplyVote indexMap rest (rank + 1) totals

/-- One turn of the `for _, vote_data in voting_results.votes_data.items()`
loop of `RankingCompare.process_votes`: bump the voter count and fold
the vote's ranks into the totals. -/
def rankingVoterStep (indexMap : List (ℤ × String))
    (acc : List (String × ℤ) × ℕ) (pv : String × Payload) :
    Option (List (String × ℤ) × ℕ) := do
  let voteJson ← aget? pv.2 "vote"
  let items ← (match voteJson with | JsonVal.arr l => some l | _ => none)
  let totals ← rankingApplyVote indexMap items 0 acc.1
  pure (totals, acc.2 + 1)

/-- `RankingCompare.process_votes`: count voters while accumulating rank
totals over `submission_ids`, then sort ascending by total and round
each average.  A payload with no `"vote"` key raises `KeyError`; the
vote schema makes every recorded vote a JSON array. -/
def rankingCompareProcessVotes (indexMap : List (ℤ × String))
    (votesData : CompareVotesData) (submissionIds : List String) :
    Option (List (String × ℤ)) := do
  let res ← votesData.foldlM (rankingVoterStep indexMap)
    (submissionIds.map (fun sid => (sid, (0 : ℤ))), (0 : ℕ))
  compareSortRound res.1 res.2

/-- `submission_i.replace("submission_", "")`: remove every (leftmost,
non-overlapping) occurrence of `"submission_"`. -/
def stripSubmissionOccurrences : List Char → List Char
  | 's' :: 'u' :: 'b' :: 'm' :: 'i' :: 's' :: 's' :: 'i' :: 'o' :: 'n' :: '_'
      :: rest => stripSubmissionOccurrences rest
  | c :: rest => c :: stripSubmissionOccurrences rest
  | [] => []

/-- One decimal digit of Python's `int()`. -/
def digitVal? (c : Char) : Option ℕ :=
  if c.isDigit then some (c.toNat - '0'.toNat) else none

/-- Python's `int()` on a trimmed literal: an optional sign followed by
at least one decimal digit; anything else raises `ValueError`
(`none`). -/
def parseIntChars : List Char → Option ℤ
  | [] => none
  | '-' :: rest =>
      if rest.isEmpty then none
      else (rest.foldlM (fun (acc : ℕ) c => (digitVal? c).map
        (fun d => acc * 10 + d)) 0).map (fun n => -(n : ℤ))
  | cs =>
      (cs.foldlM (fun (acc : ℕ) c => (digitVal? c).map
        (fun d => acc * 10 + d)) 0).map (fun n => (n : ℤ))

/-- `int(submission_i.replace("submission_", ""))` from
`ScoreCompare.process_votes`. -/
def parseSubmissionKey (s : String) : Option ℤ :=
  parseIntChars (stripSubmissionOccurrences s.toList)

/-- Inner loop of `ScoreCompare.process_votes`:
`for submission_i, score in vote_data["vote"].items():
total_scores[submission_index_map[int(...)]] += score`. -/
def scoreCompareApplyVote (indexMap : List (ℤ × String)) :
    List (String × JsonVal) → List (String × ℤ) → Option (List (String × ℤ))
  | [], totals => some totals
  | kv :: rest, totals => do
      let idx ← parseSubmissionKey kv.1
      let sid ← aget? indexMap idx
      let n ← (match kv.2 with | JsonVal.int n => some n | _ => none)
      let totals ← abump totals sid n
      scoreCompareApplyVote indexMap rest totals

/-- One turn of the voter loop of `ScoreCompare.process_votes`. -/
def scoreVoterStep (indexMap : List (ℤ × String))
    (acc : List (String × ℤ) × ℕ) (pv : String × Payload) :
    Option (List (String × ℤ) × ℕ) := do
  let voteJson ← aget? pv.2 "vote"
  let items ← (match voteJson with | JsonVal.obj l => some l | _ => none)
  let totals ← scoreCompareApplyVote indexMap items acc.1
  pure (totals, acc.2 + 1)

/-- `ScoreCompare.process_votes`: like the ranking reduction but summing
per-index integer scores taken from the vote object's
`"submission_<i>"` fields. -/
def scoreCompareProcessVotes (indexMap : List (ℤ × String))
    (votesData : CompareVotesData) (submissionIds : List String) :
    Option (List (String × ℤ)) := do
  let res ← votesData.foldlM (scoreVoterStep indexMap)
    (submissionIds.map (fun sid => (sid, (0 : ℤ))), (0 : ℕ))
  compareSortRound res.1 res.2

/-!
## Voting results state

Translated from `ciwa/models/voting_results.py`.  `add_vote` sets
`vote["created_at"] = created_at` on the caller's payload dict before
storing it, so the functions below also return the caller-visible
(stamped) payloads.  Timestamps are opaque `ℤ` clock values.
-/
/-- `vote["created_at"] = created_at` — an in-place mutation of the
caller's payload dict. -/
def stampPayload (p : Payload) (now : ℤ) : Payload :=
  aset p "created_at" (JsonVal.int now)

/-- Mutable state of a `LabelVotingResults` instance.
`submissions` is the per-submission append-only log of
`{"uuid": participant_id, "vote": vote}` records; `votesData` is the
per-submission participant-keyed dict. -/
structure LabelResultsState where
  participants : List String
  votesData : LabelVotesData
  submissions : List (String × List (String × Payload))

/-- `LabelVotingResults.__init__`. -/
def initLabelResults : LabelResultsState := ⟨[], [], []⟩

/-- One iteration of the `for submission_id, vote in vote_data.items()`
loop of `LabelVotingResults.add_vote`: stamp the payload in place,
append a `{"uuid": pid, "vote": vote}` record to the submission's log,
and overwrite `votes_data[submission_id][participant_id]`. -/
def labelAddVoteStep (pid : String) (now : ℤ)
    (acc : LabelResultsState × List (String × Payload)) (sv : String × Payload) :
    LabelResultsState × List (String × Payload) :=
  let vote := stampPayload sv.2 now
  let st1 := acc.1
  let subsList := (aget? st1.submissions sv.1).getD []
  let st2 := {st1 with
    submissions := aset st1.submissions sv.1 (subsList ++ [(pid, vote)])}
  let inner := (aget? st2.votesData sv.1).getD []
  let st3 := {st2 with votesData := aset st2.votesData sv.1 (aset inner pid vote)}
  (st3, acc.2 ++ [(sv.1, vote)])

/-- `LabelVotingResults.add_vote(participant_id, vote_data)`.  Returns the
updated state together with the caller-visible `vote_data` (whose inner
payloads have been stamped in place). -/
def labelAddVote (st : LabelResultsState) (pid : String)
    (voteData : List (String × Payload)) (now : ℤ) :
    LabelResultsState × List (String × Payload) :=
  let st0 := if st.participants.contains pid then st
             else {st with participants := st.participants ++ [pid]}
  voteData.foldl (labelAddVoteStep pid now) (st0, [])

/-- Mutable state of a `CompareVotingResults` instance. -/
structure CompareResultsState where
  participants : List String
  votesData : CompareVotesData

/-- `CompareVotingResults.__init__` (via `VotingResults.__init__`). -/
def initCompareResults : CompareResultsState := ⟨[], []⟩

/-- `CompareVotingResults.add_vote(participant_id, vote_data)`.  Returns
the updated state together with the caller-visible (stamped) payload. -/
def compareAddVote (st : CompareResultsState) (pid : String)
    (voteData : Payload) (now : ℤ) : CompareResultsState × Payload :=
  let vote := stampPayload voteData now
  let st0 := if st.participants.contains pid then st
             else {st with participants := st.participants ++ [pid]}
  ({st0 with votesData := aset st0.votesData pid vote}, vote)

/-- The `"submissions"` part of `LabelVotingResults.to_json`: per
submission, each logged voting participant with the vote's
`created_at` and `vote` fields (`KeyError`, i.e. `none`, if a stored
payload lacks either). -/
def labelSubmissionsToJson (subs : List (String × List (String × Payload))) :
    Option (List (String × List (String × (JsonVal × JsonVal)))) :=
  subs.mapM (fun sv => do
    let voters ← sv.2.mapM (fun pv => do
      let created ← aget? pv.2 "created_at"
      let v ← aget? pv.2 "vote"
      pure (pv.1, (created, v)))
    pure (sv.1, voters))

/-- The `"voting_participants"` part of `CompareVotingResults.to_json`. -/
def compareVotersToJson (vd : CompareVotesData) :
    Option (List (String × (JsonVal × JsonVal))) :=
  vd.mapM (fun pv => do
    let created ← aget? pv.2 "created_at"
    let v ← aget? pv.2 "vote"
    pure (pv.1, (created, v)))

/-!
## Voting managers

Translated from `ciwa/models/voting_manager.py`.  A manager owns a
results instance, the list of eligible submission ids, and the voting
method; `Agg` is the method-specific aggregate shape and `method` the
method's `process_votes` reduction over the raw votes data.
-/
/-- State of a `LabelVotingManager`: its results object (with the
`aggregated_results` field that `process_votes` assigns) and its
`submission_ids`. -/
structure LabelManagerState (Agg : Type) where
  results : LabelResultsState
  aggregated : Agg
  submissionIds : List String

/-- State of a `CompareVotingManager`. -/
structure CompareManagerState (Agg : Type) where
  results : CompareResultsState
  aggregated : Agg
  submissionIds : List String

/-- `LabelVotingManager.collect_label_vote`: validate the participant's
response against the vote schema; on success `add_vote`, on
`ValidationError` log and leave every structure untouched. -/
def collectLabelVote {Agg : Type} (validate : Payload → Bool)
    (m : LabelManagerState Agg) (pid sid : String) (voteJson : Payload)
    (now : ℤ) : LabelManagerState Agg :=
  if validate voteJson then
    {m with results := (labelAddVote m.results pid [(sid, voteJson)] now).1}
  else m

/-- `CompareVotingManager.collect_compare_vote`. -/
def collectCompareVote {Agg : Type} (validate : Payload → Bool)
    (m : CompareManagerState Agg) (pid : String) (voteJson : Payload)
    (now : ℤ) : CompareManagerState Agg :=
  if validate voteJson then
    {m with results := (compareAddVote m.results pid voteJson now).1}
  else m

/-- `LabelVotingManager.get_results`: recompute
`results.process_votes(voting_method, submission_ids)` (assigning
`aggregated_results` wholesale) and return `results.to_json()`, modelled
as the serialized submissions log paired with the aggregate. -/
def labelGetResults {Agg : Type} (method : LabelVotesData → List String → Agg)
    (m : LabelManagerState Agg) :
    LabelManagerState Agg ×
      (Option (List (String × List (String × (JsonVal × JsonVal)))) × Agg) :=
  let agg := method m.results.votesData m.submissionIds
  ({m with aggregated := agg}, (labelSubmissionsToJson m.results.submissions, agg))

/-- `CompareVotingManager.get_results`. -/
def compareGetResults {Agg : Type}
    (method : CompareVotesData → List String → Agg)
    (m : CompareManagerState Agg) :
    CompareManagerState Agg ×
      (Option (List (String × (JsonVal × JsonVal))) × Agg) :=
  let agg := method m.results.votesData m.submissionIds
  ({m with aggregated := agg}, (compareVotersToJson m.results.votesData, agg))

/-!
## Vote schemas

`get_vote_schema` of the concrete methods, wrapped by
`SchemaFactory.create_object_schema("vote", ...)`:
`{"type": "object", "properties": {"vote": inner}, "required": ["vote"],
"additionalProperties": false}`, checked with `jsonschema.validate`
(draft 7 semantics).
-/
/-- Validity against the `create_object_schema("vote", inner)` wrapper:
the payload's only key is `"vote"`, it is present, and its value
matches the inner schema. -/
def voteObjectValid (inner : JsonVal → Bool) (p : Payload) : Bool :=
  p.all (fun kv => kv.1 == "vote") &&
    (match aget? p "vote" with
     | some v => inner v
     | none => false)

/-- `ScoreLabel.get_vote_schema` inner payload:
`{"type": "integer", "minimum": start_value, "maximum": end_value}`
(draft 7 treats booleans as non-integers). -/
def scoreVoteValid (startV endV : ℤ) : JsonVal → Bool
  | JsonVal.int n => decide (startV ≤ n) && decide (n ≤ endV)
  | _ => false

/-- `EnumLabel.get_vote_schema` inner payload:
`{"type": "string", "enum": enum_values}`. -/
def enumVoteValid (enumValues : List String) : JsonVal → Bool
  | JsonVal.str s => enumValues.contains s
  | _ => false

/-- `RankingCompare.get_vote_schema` inner payload: an array of exactly
`num_submissions` unique integers, each between 1 and
`num_submissions`. -/
def rankingArrayValid (numSubmissions : ℕ) : JsonVal → Bool
  | JsonVal.arr items =>
      match items.mapM (fun it =>
          match it with | JsonVal.int n => some n | _ => none) with
      | some ns =>
          decide (ns.length = numSubmissions) &&
            ns.all (fun n => decide (1 ≤ n) && decide (n ≤ (numSubmissions : ℤ))) &&
            decide ns.Nodup
      | none => false
  | _ => false

/-- The full `ScoreLabel` vote schema check. -/
def scoreLabelVoteSchemaValid (startV endV : ℤ) : Payload → Bool :=
  voteObjectValid (scoreVoteValid startV endV)

/-- The full `RankingCompare` vote schema check. -/
def rankingVoteSchemaValid (numSubmissions : ℕ) : Payload → Bool :=
  voteObjectValid (rankingArrayValid numSubmissions)

/-!
## Structured response protocol

Translated from
`LLMAgentParticipant.send_prompt_with_retries` in
`ciwa/models/participants/llm_agent_participant.py`.  `respond prompt`
stands for `get_json(await self.send_prompt(prompt, schema))`: the
participant's (already coerced) structured response to a given request
text — a coercion failure yields a value that fails the schema
validator.  Each recursive call issues exactly one request; the second
component counts the requests issued.
-/
/-- `send_prompt_with_retries`.  Runs the validation steps in order; on
the first failure, if `attempt < max_attempts`, retries with the
corrective message prepended to the current prompt, else returns `None`
(Failure, logged and not raised). -/
def sendPromptWithRetries (respond : String → JsonVal)
    (validationSteps : List ((JsonVal → Bool) × String)) (prompt : String)
    (maxAttempts attempt : ℕ) : Option JsonVal × ℕ :=
  let response := respond prompt
  match validationSteps.find? (fun vs => !(vs.1 response)) with
  | none => (some response, 1)
  | some vs =>
      if _h : attempt < maxAttempts then
        let r := sendPromptWithRetries respond validationSteps
          (vs.2 ++ "\n" ++ prompt) maxAttempts (attempt + 1)
        (r.1, r.2 + 1)
      else (none, 1)
termination_by maxAttempts - attempt
decreasing_by omega

/-!
## Submission creation and acceptance

Translated from `LLMAgentParticipant.create_submission` /
`_get_submission_response` and `Topic.add_submission` /
`Session.create_submission_task`.
-/
/-- Validity against the submission response schema
`create_object_schema("submission",
Submission.get_response_schema(content_schema))`: a single-key
`{"submission": {... "content": <content matching the topic schema>}}`
object. -/
def submissionResponseValid (contentValid : JsonVal → Bool) : JsonVal → Bool
  | JsonVal.obj fields =>
      fields.all (fun kv => kv.1 == "submission") &&
        (match aget? fields "submission" with
         | some (JsonVal.obj sfields) =>
             (match aget? sfields "content" with
              | some c => contentValid c
              | none => false)
         | _ => false)
  | _ => false

/-- `submission_response["submission"]["content"]` (`none` when the
lookups raise, which cannot happen on a schema-valid response). -/
def getSubmissionContent : JsonVal → Option JsonVal
  | JsonVal.obj fields =>
      (match aget? fields "submission" with
       | some (JsonVal.obj sfields) => aget? sfields "content"
       | _ => none)
  | _ => none

/-- `LLMAgentParticipant.create_submission`: acquire a structured
response through `send_prompt_with_retries` with the two validation
steps `[(schema check, invalid_json_response), (submission_validator,
invalid_message)]`; on Failure (`_get_submission_response` returns the
falsy `{}`) produce no submission, otherwise a submission carrying
`response["submission"]["content"]`. -/
def createSubmission (respond : String → JsonVal)
    (contentValid : JsonVal → Bool) (validatorJson : JsonVal → Bool)
    (invalidJsonMessage invalidMessage prompt : String) (maxAttempts : ℕ) :
    Option JsonVal :=
  match (sendPromptWithRetries respond
      [(submissionResponseValid contentValid, invalidJsonMessage),
       (validatorJson, invalidMessage)] prompt maxAttempts 0).1 with
  | none => none
  | some r => getSubmissionContent r

/-- A `Submission`: identity plus opaque content (participant/topic
references and the creation timestamp play no role in the checked
properties). -/
structure Submission where
  uuid : String
  content : JsonVal

/-- The per-topic state `Topic.add_submission` touches: the accepted
submission list, the topic's queue, and the voting manager's eligible
`submission_ids`.  The source passes the same `submission_validator`
callable both the raw response JSON (inside the retry loop) and the
`Submission` object (in `add_submission`); the embedding splits the two
views into `validatorJson` and `validator`. -/
structure TopicState where
  validator : Submission → Bool
  validatorJson : JsonVal → Bool
  invalidMessage : String
  submissions : List Submission
  submissionsQueue : List Submission
  votingSubmissionIds : List String

/-- `Topic.add_submission`: append to queue, submission list and eligible
ids when `submission_validator` accepts, otherwise log a warning and
change nothing. -/
def addSubmission (t : TopicState) (s : Submission) : TopicState :=
  if t.validator s then
    {t with
      submissions := t.submissions ++ [s],
      submissionsQueue := t.submissionsQueue ++ [s],
      votingSubmissionIds := t.votingSubmissionIds ++ [s.uuid]}
  else t

/-- `Session.create_submission_task`: run `participant.create_submission`
for the topic; only a non-`None` submission is handed to
`topic.add_submission`. -/
def createSubmissionTask (t : TopicState) (respond : String → JsonVal)
    (contentValid : JsonVal → Bool) (invalidJsonMessage prompt : String)
    (maxAttempts : ℕ) (uuid : String) : TopicState :=
  match createSubmission respond contentValid t.validatorJson
      invalidJsonMessage t.invalidMessage prompt maxAttempts with
  | none => t
  | some content => addSubmission t ⟨uuid, content⟩

/-!
## `Session.gather_submissions` as an interleaving model

The source wraps only the `asyncio.create_task` call — not the spawned
task's execution — in `async with semaphore`:

    semaphore = asyncio.Semaphore(self.max_concurrent)
    for topic in self.topics:
      for participant in self.participants:
        for _ in range(self.max_subs_per_topic):
          async with semaphore:
            task = asyncio.create_task(self.create_submission_task(...))
            tasks.append(task)
    await asyncio.gather(*tasks)

The model reflects asyncio's cooperative scheduling: control changes
hands only at suspension points.  With a positive semaphore value the
`acquire` fast path returns without suspending, `create_task` only
schedules the coroutine, and the `async with` exit releases the
semaphore — so each loop iteration runs atomically and restores the
semaphore before any spawned task has run.  Spawned tasks first run
when the main coroutine suspends in `asyncio.gather`, and their bodies
(`create_submission_task`) never touch the semaphore; each runs to its
first suspension point, `await participant.create_submission(topic)`,
where it stays in flight until the participant call returns.
-/
/-- Lifecycle of one spawned `create_submission_task` coroutine. -/
inductive TaskPhase : Type
  | notSpawned : TaskPhase
  | spawned : TaskPhase
  | inflight : TaskPhase
  | finished : TaskPhase
deriving DecidableEq

/-- Joint state of the event loop during `gather_submissions`: the
semaphore value, how many loop iterations the main coroutine has
completed, whether it has suspended in `asyncio.gather`, and one phase
per (topic, participant, submission-slot) task. -/
structure SchedState where
  sem : ℕ
  spawnedCount : ℕ
  mainWaiting : Bool
  tasks : List TaskPhase

/-- Interleaving semantics of `gather_submissions`. -/
inductive SchedStep : SchedState → SchedState → Prop
  /-- One loop iteration: `async with semaphore` acquires (positive
  value, fast path, no suspension), `create_task` schedules the next
  coroutine, and the block exit releases — atomic, semaphore restored. -/
  | spawn (st : SchedState) (h : st.mainWaiting = false)
      (hs : st.spawnedCount < st.tasks.length)
      (htask : st.tasks.get? st.spawnedCount = some TaskPhase.notSpawned)
      (hsem : 0 < st.sem) :
      SchedStep st {st with spawnedCount := st.spawnedCount + 1,
                            tasks := st.tasks.set st.spawnedCount TaskPhase.spawned}
  /-- `await asyncio.gather(*tasks)`: the main coroutine suspends. -/
  | wait (st : SchedState) (h : st.mainWaiting = false)
      (hs : st.spawnedCount = st.tasks.length) :
      SchedStep st {st with mainWaiting := true}
  /-- The event loop runs a scheduled task up to its first suspension
  point (`await participant.create_submission`); it acquires nothing. -/
  | start (st : SchedState) (i : ℕ) (h : st.mainWaiting = true)
      (htask : st.tasks.get? i = some TaskPhase.spawned) :
      SchedStep st {st with tasks := st.tasks.set i TaskPhase.inflight}
  /-- The awaited participant call returns and the task finishes. -/
  | finish (st : SchedState) (i : ℕ) (h : st.mainWaiting = true)
      (htask : st.tasks.get? i = some TaskPhase.inflight) :
      SchedStep st {st with tasks := st.tasks.set i TaskPhase.finished}

/-- Entry state of `gather_submissions` with `numTasks` (topic,
participant, slot) triples and `Semaphore(max_concurrent)`. -/
def initSched (numTasks maxConcurrent : ℕ) : SchedState :=
  ⟨maxConcurrent, 0, false, List.replicate numTasks TaskPhase.notSpawned⟩

/-- States the event loop can reach during `gather_submissions`. -/
def SchedReachable (numTasks maxConcurrent : ℕ) (st : SchedState) : Prop :=
  Relation.ReflTransGen SchedStep (initSched numTasks maxConcurrent) st

/-- Is a task currently executing (suspended inside its body)? -/
def TaskPhase.isInflight : TaskPhase → Bool
  | TaskPhase.inflight => true
  | _ => false

/-- Number of concurrently executing submission-creation tasks. -/
def inflightCount (st : SchedState) : ℕ :=
  st.tasks.countP TaskPhase.isInflight

/-!
## Run helpers and observation functions

Used only to state the checked properties; each is a plain reading of a
structure defined above.
-/
/-- A sequence of `LabelVotingResults.add_vote` calls applied to a fresh
results object: each call is (participant id, vote_data, timestamp). -/
def labelRunVotes (calls : List (String × List (String × Payload) × ℤ)) :
    LabelResultsState :=
  calls.foldl (fun st c => (labelAddVote st c.1 c.2.1 c.2.2).1) initLabelResults

/-- A sequence of `CompareVotingResults.add_vote` calls applied to a
fresh results object. -/
def compareRunVotes (calls : List (String × Payload × ℤ)) :
    CompareResultsState :=
  calls.foldl (fun st c => (compareAddVote st c.1 c.2.1 c.2.2).1)
    initCompareResults

/-- `[1, 2, ..., n]` as integers: the index set of a compare round. -/
def oneToN (n : ℕ) : List ℤ :=
  (List.range n).map (fun (j : ℕ) => (j : ℤ) + 1)

/-- The array stored under a payload's `"vote"` key (`[]` if absent or
not an array); under the hypotheses used below it is always present. -/
def voteItems (p : Payload) : List JsonVal :=
  match aget? p "vote" with
  | some (JsonVal.arr l) => l
  | _ => []

/-- The integer stored under a payload's `"vote"` key (0 if absent or
not an integer); under the hypotheses used below it is always present. -/
def voteIntValue (p : Payload) : ℤ :=
  match aget? p "vote" with
  | some (JsonVal.int n) => n
  | _ => 0

/-- The scores recorded for one submission, in insertion order: the
`[vote["vote"] for vote in votes_data.get(sid, {}).values()]` list. -/
def submissionScores (votesData : LabelVotesData) (sid : String) : List ℤ :=
  ((aget? votesData sid).getD []).map (fun pv => voteIntValue pv.2)

/-- Total rank contributed to submission `sid` by one ranking vote,
starting at 0-based rank `rank`: the sum of the positions whose entry
maps to `sid`. -/
def rankContrib (indexMap : List (ℤ × String)) (sid : String) :
    List JsonVal → ℕ → ℤ
  | [], _ => 0
  | item :: rest, rank =>
      (if (match item with
           | JsonVal.int n => aget? indexMap n
           | _ => none) = some sid
       then (rank : ℤ) else 0) + rankContrib indexMap sid rest (rank + 1)

/-- `rankContrib` specialised to integer entries and a boolean test. -/
def intRankContrib (cond : ℤ → Bool) : List ℤ → ℕ → ℤ
  | [], _ => 0
  | n :: rest, rank =>
      (if cond n then (rank : ℤ) else 0) + intRankContrib cond rest (rank + 1)

/-- The zero-filled per-value counts an `EnumLabel` aggregate assigns to
a submission with no votes. -/
def zeroCounts (enumValues : List String) : List (String × ℤ) :=
  enumValues.map (fun v => (v, (0 : ℤ)))

/-- Every participant-keyed dict inside `votes_data` has no duplicate
keys (so it holds at most one vote per participant). -/
def innerKeysNodup (st : LabelResultsState) : Prop :=
  ∀ sid inner, aget? st.votesData sid = some inner → (akeys inner).Nodup

@[simp] theorem aget?_nil {κ α : Type _} [DecidableEq κ] (k : κ) :
    aget? ([] : List (κ × α)) k = none := rfl

theorem aget?_cons {κ α : Type _} [DecidableEq κ] (kv : κ × α)
    (rest : List (κ × α)) (k : κ) :
    aget? (kv :: rest) k = if kv.1 = k then some kv.2 else aget? rest k := rfl

theorem ahas_iff_aget?_isSome {κ α : Type _} [DecidableEq κ]
    (d : List (κ × α)) (k : κ) : ahas d k = (aget? d k).isSome := by
  induction d with
  | nil => rfl
  | cons kv rest ih =>
      simp only [ahas, aget?]
      split <;> simp [ih]

theorem aget?_append {κ α : Type _} [DecidableEq κ]
    (d e : List (κ × α)) (k : κ) :
    aget? (d ++ e) k =
      match aget? d k with
      | some v => some v
      | none => aget? e k := by
  induction d with
  | nil => simp [aget?]
  | cons kv rest ih =>
      rw [List.cons_append, aget?_cons, aget?_cons]
      by_cases hk : kv.1 = k
      · simp [hk]
      · simp only [if_neg hk]
        exact ih

theorem aget?_setmap_self {κ α : Type _} [DecidableEq κ]
    (d : List (κ × α)) (k : κ) (v : α) (h : ahas d k = true) :
    aget? (d.map (fun kv => if kv.1 = k then (k, v) else kv)) k = some v := by
  induction d with
  | nil => simp [ahas] at h
  | cons kv rest ih =>
      rw [List.map_cons, aget?_cons]
      by_cases hk : kv.1 = k
      · simp [hk]
      · rw [if_neg hk, if_neg hk]
        exact ih (by simpa [ahas, hk] using h)

theorem aget?_setmap_ne {κ α : Type _} [DecidableEq κ]
    (d : List (κ × α)) (k k' : κ) (v : α) (h : k' ≠ k) :
    aget? (d.map (fun kv => if kv.1 = k then (k, v) else kv)) k' = aget? d k' := by
  induction d with
  | nil => rfl
  | cons kv rest ih =>
      rw [List.map_cons, aget?_cons, aget?_cons]
      by_cases hk : kv.1 = k
      · rw [if_pos hk]
        have h1 : ¬ ((k, v).1 = k') := fun hh => h.symm hh
        have h2 : ¬ (kv.1 = k') := fun hh => h.symm (hk.symm.trans hh)
        rw [if_neg h1, if_neg h2]
        exact ih
      · rw [if_neg hk]
        by_cases hk' : kv.1 = k'
        · rw [if_pos hk', if_pos hk']
        · rw [if_neg hk', if_neg hk']
          exact ih

theorem aget?_eq_none_of_not_ahas {κ α : Type _} [DecidableEq κ]
    {d : List (κ × α)} {k : κ} (h : ¬ ahas d k = true) : aget? d k = none := by
  rw [ahas_iff_aget?_isSome] at h
  cases hv : aget? d k with
  | none => rfl
  | some v => rw [hv] at h; simp at h

theorem aget?_aset_self {κ α : Type _} [DecidableEq κ]
    (d : List (κ × α)) (k : κ) (v : α) : aget? (aset d k v) k = some v := by
  unfold aset
  split
  · exact aget?_setmap_self d k v (by assumption)
  · rw [aget?_append, aget?_eq_none_of_not_ahas (by assumption)]
    simp [aget?]

theorem aget?_aset_ne {κ α : Type _} [DecidableEq κ]
    (d : List (κ × α)) (k k' : κ) (v : α) (h : k' ≠ k) :
    aget? (aset d k v) k' = aget? d k' := by
  unfold aset
  split
  · exact aget?_setmap_ne d k k' v h
  · rw [aget?_append]
    cases hv : aget? d k' with
    | some w => rfl
    | none => simp only [aget?, if_neg (fun hh : k = k' => h hh.symm)]

theorem akeys_aset {κ α : Type _} [DecidableEq κ]
    (d : List (κ × α)) (k : κ) (v : α) :
    akeys (aset d k v) = if ahas d k then akeys d else akeys d ++ [k] := by
  unfold aset
  split
  · simp only [akeys, List.map_map, if_true]
    rename_i h
    congr 1
    funext kv
    by_cases hk : kv.1 = k <;> simp [hk]
  · simp [akeys]

theorem halfEvenDiv_mono {a a' b : ℤ} (hb : 0 < b) (h : a ≤ a') :
    halfEvenDiv a b ≤ halfEvenDiv a' b := by
  have hq : a / b ≤ a' / b := Int.ediv_le_ediv hb h
  have h1 : b * (a / b) + a % b = a := Int.ediv_add_emod a b
  have h2 : b * (a' / b) + a' % b = a' := Int.ediv_add_emod a' b
  have h3 : 0 ≤ a % b := Int.emod_nonneg a (ne_of_gt hb)
  have h4 : a % b < b := Int.emod_lt_of_pos a hb
  have h5 : 0 ≤ a' % b := Int.emod_nonneg a' (ne_of_gt hb)
  have h6 : a' % b < b := Int.emod_lt_of_pos a' hb
  unfold halfEvenDiv
  rcases lt_or_eq_of_le hq with hlt | heq
  · split_ifs <;> omega
  · have hrr : a % b ≤ a' % b := by
      rw [heq] at h1
      linarith
    rw [heq]
    split_ifs <;> omega

theorem pyRound3Milli_mono {n n' : ℤ} {c : ℤ} (hc : 0 < c) (h : n ≤ n') :
    pyRound3Milli n c ≤ pyRound3Milli n' c :=
  halfEvenDiv_mono hc (by linarith)

theorem aget?_mapVal {κ α β : Type _} [DecidableEq κ]
    (f : κ → α → β) (d : List (κ × α)) (k : κ) :
    aget? (d.map (fun kv => (kv.1, f kv.1 kv.2))) k = (aget? d k).map (f k) := by
  induction d with
  | nil => rfl
  | cons kv rest ih =>
      rw [List.map_cons, aget?_cons, aget?_cons]
      by_cases hk : kv.1 = k
      · subst hk; simp
      · rw [if_neg hk, if_neg hk]
        exact ih

theorem abump_eq_mapVal {κ : Type _} [DecidableEq κ]
    (d : List (κ × ℤ)) (k : κ) (δ : ℤ) (h : ahas d k = true) :
    abump d k δ = some (d.map (fun kv => (kv.1, if kv.1 = k then kv.2 + δ else kv.2))) := by
  unfold abump
  rw [if_pos h]
  congr 1
  apply List.map_congr_left
  intro kv _
  by_cases hk : kv.1 = k <;> simp [hk]

theorem abump_isSome_iff {κ : Type _} [DecidableEq κ]
    (d : List (κ × ℤ)) (k : κ) (δ : ℤ) : (abump d k δ).isSome ↔ ahas d k = true := by
  unfold abump
  by_cases h : ahas d k <;> simp [h]

theorem aget?_abump_self {κ : Type _} [DecidableEq κ]
    {d d' : List (κ × ℤ)} {k : κ} {δ : ℤ} (h : abump d k δ = some d') :
    aget? d' k = (aget? d k).map (· + δ) := by
  have hhas : ahas d k = true := by
    by_contra hn
    unfold abump at h
    rw [if_neg hn] at h
    exact Option.noConfusion h
  rw [abump_eq_mapVal d k δ hhas] at h
  cases h
  rw [aget?_mapVal (fun k' v => if k' = k then v + δ else v) d k]
  simp

theorem aget?_abump_ne {κ : Type _} [DecidableEq κ]
    {d d' : List (κ × ℤ)} {k k' : κ} {δ : ℤ} (h : abump d k δ = some d')
    (hne : k' ≠ k) : aget? d' k' = aget? d k' := by
  have hhas : ahas d k = true := by
    by_contra hn
    unfold abump at h
    rw [if_neg hn] at h
    exact Option.noConfusion h
  rw [abump_eq_mapVal d k δ hhas] at h
  cases h
  rw [aget?_mapVal (fun k'' v => if k'' = k then v + δ else v) d k']
  simp [hne]

theorem akeys_abump {κ : Type _} [DecidableEq κ]
    {d d' : List (κ × ℤ)} {k : κ} {δ : ℤ} (h : abump d k δ = some d') :
    akeys d' = akeys d := by
  have hhas : ahas d k = true := by
    by_contra hn
    unfold abump at h
    rw [if_neg hn] at h
    exact Option.noConfusion h
  rw [abump_eq_mapVal d k δ hhas] at h
  cases h
  simp [akeys, Function.comp]

/-!
## Structured response protocol: retry accounting
-/
theorem sendPromptWithRetries_always_invalid_aux
    (respond : String → JsonVal) (steps : List ((JsonVal → Bool) × String))
    (maxAttempts : ℕ)
    (hinv : ∀ p : String,
      (steps.find? (fun vs => !(vs.1 (respond p)))).isSome = true) :
    ∀ (fuel : ℕ) (prompt : String) (attempt : ℕ),
      maxAttempts - attempt = fuel →
      sendPromptWithRetries respond steps prompt maxAttempts attempt =
        (none, fuel + 1) := by
  intro fuel
  induction fuel with
  | zero =>
      intro prompt attempt hf
      rw [sendPromptWithRetries]
      obtain ⟨vs, hvs⟩ := Option.isSome_iff_exists.mp (hinv prompt)
      rw [hvs]
      simp only
      rw [dif_neg (by omega)]
  | succ n ih =>
      intro prompt attempt hf
      rw [sendPromptWithRetries]
      obtain ⟨vs, hvs⟩ := Option.isSome_iff_exists.mp (hinv prompt)
      rw [hvs]
      simp only
      rw [dif_pos (by omega)]
      rw [ih _ (attempt + 1) (by omega)]

/-- With a participant whose responses always fail some validation step,
`send_prompt_with_retries` returns Failure after `max_attempts + 1`
requests (not `max_attempts`): attempts `0, 1, ..., max_attempts` each
issue one request. -/
theorem sendPromptWithRetries_always_invalid
    (respond : String → JsonVal) (steps : List ((JsonVal → Bool) × String))
    (hinv : ∀ p : String,
      (steps.find? (fun vs => !(vs.1 (respond p)))).isSome = true)
    (prompt : String) (maxAttempts : ℕ) :
    sendPromptWithRetries respond steps prompt maxAttempts 0 =
      (none, maxAttempts + 1) := by
  have h := sendPromptWithRetries_always_invalid_aux respond steps maxAttempts
    hinv (maxAttempts - 0) prompt 0 rfl
  simpa using h

/-- C2: with the default `max_attempts = 3` and a participant that never
returns a valid payload, `send_prompt_with_retries` does return Failure
(`None`), but only after issuing 4 requests — one per attempt
`0, 1, 2, 3` — not after exactly `max_attempts = 3` requests as the
specification states. -/
theorem send_prompt_with_retries_exhausts_after_four_requests :
    sendPromptWithRetries (fun _ => JsonVal.null)
      [(fun _ => false, "Invalid response.")] "prompt" 3 0 = (none, 4) := by
  have h := sendPromptWithRetries_always_invalid (fun _ => JsonVal.null)
    [(fun _ => false, "Invalid response.")] (fun _ => rfl) "prompt" 3
  simpa using h

/-!
## Manager-level properties
-/
/-- C8: `get_results()` recomputes the aggregate from the unchanged raw
`votes_data` and `submission_ids`, so calling it twice with no
`add_vote` in between returns identical output for both manager
families, whatever the voting method computes. -/
theorem get_results_idempotent {Agg AggC : Type}
    (methodL : LabelVotesData → List String → Agg)
    (methodC : CompareVotesData → List String → AggC)
    (m : LabelManagerState Agg) (mc : CompareManagerState AggC) :
    (labelGetResults methodL (labelGetResults methodL m).1).2 =
      (labelGetResults methodL m).2 ∧
    (compareGetResults methodC (compareGetResults methodC mc).1).2 =
      (compareGetResults methodC mc).2 :=
  ⟨rfl, rfl⟩

theorem labelAddVote_foldl_snd (pid : String) (now : ℤ)
    (vd : List (String × Payload)) :
    ∀ (st : LabelResultsState) (a : List (String × Payload)),
      (vd.foldl (labelAddVoteStep pid now) (st, a)).2 =
        a ++ vd.map (fun sv => (sv.1, stampPayload sv.2 now)) := by
  induction vd with
  | nil => intro st a; simp
  | cons sv rest ih =>
      intro st a
      rw [List.foldl_cons]
      show (rest.foldl (labelAddVoteStep pid now) (labelAddVoteStep pid now (st, a) sv)).2 = _
      rw [show labelAddVoteStep pid now (st, a) sv =
        ((labelAddVoteStep pid now (st, a) sv).1, a ++ [(sv.1, stampPayload sv.2 now)]) from rfl]
      rw [ih]
      simp

theorem labelAddVote_snd (st : LabelResultsState) (pid : String)
    (voteData : List (String × Payload)) (now : ℤ) :
    (labelAddVote st pid voteData now).2 =
      voteData.map (fun sv => (sv.1, stampPayload sv.2 now)) := by
  unfold labelAddVote
  rw [labelAddVote_foldl_snd]
  simp

/-- C10: both `add_vote` variants mutate the caller's payload dict in
place: afterwards it equals the original with a `created_at` key set,
every other key is bound to its original value, and no key other than
`created_at` was added or removed. -/
theorem add_vote_stamps_created_at_only
    (stL : LabelResultsState) (stC : CompareResultsState)
    (pid sid : String) (p : Payload) (now : ℤ) :
    (labelAddVote stL pid [(sid, p)] now).2 = [(sid, stampPayload p now)] ∧
    (compareAddVote stC pid p now).2 = stampPayload p now ∧
    aget? (stampPayload p now) "created_at" = some (JsonVal.int now) ∧
    (∀ k, k ≠ "created_at" → aget? (stampPayload p now) k = aget? p k) ∧
    (∀ k, k ≠ "created_at" →
      (k ∈ akeys (stampPayload p now) ↔ k ∈ akeys p)) := by
  refine ⟨by rw [labelAddVote_snd]; rfl, rfl,
    aget?_aset_self p "created_at" _, ?_, ?_⟩
  · intro k hk
    exact aget?_aset_ne p "created_at" k _ hk
  · intro k hk
    unfold stampPayload
    rw [akeys_aset]
    split
    · exact Iff.rfl
    · simp [hk]

theorem add_vote_stamps_created_at_only_witness :
    ("vote" : String) ≠ "created_at" ∧
    aget? (stampPayload [("vote", JsonVal.str "yes")] 7) "vote" =
      aget? [("vote", JsonVal.str "yes")] "vote" := by
  refine ⟨by decide, ?_⟩
  exact (add_vote_stamps_created_at_only initLabelResults initCompareResults
    "participant1" "submission1" [("vote", JsonVal.str "yes")] 7).2.2.2.1
    "vote" (by decide)

/-- C6: a vote payload that fails schema validation at insertion time is
never passed to `add_vote`: the whole manager state — `votes_data`, the
per-submission vote logs, the participants list — is unchanged, and the
recomputed aggregate equals the one computed without the rejected
payload, for both manager families. -/
theorem invalid_vote_payload_not_inserted {Agg AggC : Type}
    (validateL validateC : Payload → Bool)
    (methodL : LabelVotesData → List String → Agg)
    (methodC : CompareVotesData → List String → AggC)
    (m : LabelManagerState Agg) (mc : CompareManagerState AggC)
    (pid sid : String) (v w : Payload) (now now2 : ℤ)
    (hL : validateL v = false) (hC : validateC w = false) :
    collectLabelVote validateL m pid sid v now = m ∧
    collectCompareVote validateC mc pid w now2 = mc ∧
    (labelGetResults methodL (collectLabelVote validateL m pid sid v now)).2 =
      (labelGetResults methodL m).2 ∧
    (compareGetResults methodC (collectCompareVote validateC mc pid w now2)).2 =
      (compareGetResults methodC mc).2 := by
  have e1 : collectLabelVote validateL m pid sid v now = m := by
    simp [collectLabelVote, hL]
  have e2 : collectCompareVote validateC mc pid w now2 = mc := by
    simp [collectCompareVote, hC]
  exact ⟨e1, e2, by rw [e1], by rw [e2]⟩

theorem invalid_vote_payload_not_inserted_witness :
    scoreLabelVoteSchemaValid 1 5 [("vote", JsonVal.int 99)] = false ∧
    rankingVoteSchemaValid 3
      [("vote", JsonVal.arr [JsonVal.int 1, JsonVal.int 2, JsonVal.int 5])] =
      false ∧
    collectLabelVote (scoreLabelVoteSchemaValid 1 5)
      ({ results := initLabelResults, aggregated := none,
         submissionIds := ["submission1"] } :
        LabelManagerState (Option (List (String × Option ℤ))))
      "participant1" "submission1" [("vote", JsonVal.int 99)] 0 =
      { results := initLabelResults, aggregated := none,
        submissionIds := ["submission1"] } ∧
    collectCompareVote (rankingVoteSchemaValid 3)
      ({ results := initCompareResults, aggregated := none,
         submissionIds := ["s1", "s2", "s3"] } :
        CompareManagerState (Option (List (String × ℤ))))
      "participant1"
      [("vote", JsonVal.arr [JsonVal.int 1, JsonVal.int 2, JsonVal.int 5])] 0 =
      { results := initCompareResults, aggregated := none,
        submissionIds := ["s1", "s2", "s3"] } := by
  have h := invalid_vote_payload_not_inserted
    (scoreLabelVoteSchemaValid 1 5) (rankingVoteSchemaValid 3)
    scoreLabelProcessVotes
    (rankingCompareProcessVotes (submissionIndexMap ["s1", "s2", "s3"]))
    ({ results := initLabelResults, aggregated := none,
       submissionIds := ["submission1"] } :
      LabelManagerState (Option (List (String × Option ℤ))))
    ({ results := initCompareResults, aggregated := none,
       submissionIds := ["s1", "s2", "s3"] } :
      CompareManagerState (Option (List (String × ℤ))))
    "participant1" "submission1"
    [("vote", JsonVal.int 99)]
    [("vote", JsonVal.arr [JsonVal.int 1, JsonVal.int 2, JsonVal.int 5])]
    0 0 rfl rfl
  exact ⟨rfl, rfl, h.1, h.2.1⟩

/-!
## Session concurrency bound
-/
/-- C9: the semaphore in `gather_submissions` guards only task creation
and is released before any task body runs, so it does not bound
execution.  With `max_concurrent = 1` and two (topic, participant)
pairs, the event loop reaches a state where the semaphore is untouched
(still 1) and both submission-creation tasks are executing
concurrently — violating the claimed bound 1. -/
theorem gather_submissions_concurrency_bound_violated :
    ∃ st, SchedReachable 2 1 st ∧ st.sem = 1 ∧ inflightCount st = 2 := by
  have s1 : SchedStep (initSched 2 1)
      ⟨1, 1, false, [TaskPhase.spawned, TaskPhase.notSpawned]⟩ :=
    SchedStep.spawn (initSched 2 1) rfl (by decide) rfl (by decide)
  have s2 : SchedStep ⟨1, 1, false, [TaskPhase.spawned, TaskPhase.notSpawned]⟩
      ⟨1, 2, false, [TaskPhase.spawned, TaskPhase.spawned]⟩ :=
    SchedStep.spawn _ rfl (by decide) rfl (by decide)
  have s3 : SchedStep ⟨1, 2, false, [TaskPhase.spawned, TaskPhase.spawned]⟩
      ⟨1, 2, true, [TaskPhase.spawned, TaskPhase.spawned]⟩ :=
    SchedStep.wait _ rfl (by decide)
  have s4 : SchedStep ⟨1, 2, true, [TaskPhase.spawned, TaskPhase.spawned]⟩
      ⟨1, 2, true, [TaskPhase.inflight, TaskPhase.spawned]⟩ :=
    SchedStep.start _ 0 rfl rfl
  have s5 : SchedStep ⟨1, 2, true, [TaskPhase.inflight, TaskPhase.spawned]⟩
      ⟨1, 2, true, [TaskPhase.inflight, TaskPhase.inflight]⟩ :=
    SchedStep.start _ 1 rfl rfl
  exact ⟨⟨1, 2, true, [TaskPhase.inflight, TaskPhase.inflight]⟩,
    Relation.ReflTransGen.head s1 (Relation.ReflTransGen.head s2
      (Relation.ReflTransGen.head s3 (Relation.ReflTransGen.head s4
        (Relation.ReflTransGen.head s5 Relation.ReflTransGen.refl)))),
    rfl, rfl⟩

/-!
## Submission acceptance
-/
theorem sendPromptWithRetries_some_valid_aux
    (respond : String → JsonVal) (steps : List ((JsonVal → Bool) × String))
    (maxAttempts : ℕ) :
    ∀ (fuel : ℕ) (prompt : String) (attempt : ℕ),
      maxAttempts - attempt = fuel →
      ∀ r : JsonVal,
        (sendPromptWithRetries respond steps prompt maxAttempts attempt).1 =
          some r →
        ∀ vs ∈ steps, vs.1 r = true := by
  intro fuel
  induction fuel with
  | zero =>
      intro prompt attempt _hf r h vs hvs
      rw [sendPromptWithRetries] at h
      cases hfind : steps.find? (fun vs => !(vs.1 (respond prompt))) with
      | none =>
          rw [hfind] at h
          simp only at h
          cases h
          have := List.find?_eq_none.mp hfind vs hvs
          simpa using this
      | some vs0 =>
          rw [hfind] at h
          simp only at h
          split at h
          · omega
          · exact Option.noConfusion h
  | succ n ih =>
      intro prompt attempt hf r h vs hvs
      rw [sendPromptWithRetries] at h
      cases hfind : steps.find? (fun vs => !(vs.1 (respond prompt))) with
      | none =>
          rw [hfind] at h
          simp only at h
          cases h
          have := List.find?_eq_none.mp hfind vs hvs
          simpa using this
      | some vs0 =>
          rw [hfind] at h
          simp only at h
          split at h
          · exact ih _ (attempt + 1) (by omega) r h vs hvs
          · exact Option.noConfusion h

/-- A response accepted by `send_prompt_with_retries` passed every
validation step. -/
theorem sendPromptWithRetries_some_valid
    (respond : String → JsonVal) (steps : List ((JsonVal → Bool) × String))
    (prompt : String) (maxAttempts attempt : ℕ) (r : JsonVal)
    (h : (sendPromptWithRetries respond steps prompt maxAttempts attempt).1 =
      some r) :
    ∀ vs ∈ steps, vs.1 r = true :=
  sendPromptWithRetries_some_valid_aux respond steps maxAttempts
    (maxAttempts - attempt) prompt attempt rfl r h

/-- A response that validates against the wrapped submission schema has
a content field, and that content matches the topic's content schema. -/
theorem submissionResponseValid_content {cv : JsonVal → Bool} {r : JsonVal}
    (h : submissionResponseValid cv r = true) :
    ∃ c, getSubmissionContent r = some c ∧ cv c = true := by
  cases r with
  | obj fields =>
      unfold submissionResponseValid at h
      rw [Bool.and_eq_true] at h
      obtain ⟨-, h2⟩ := h
      unfold getSubmissionContent
      cases hsub : aget? fields "submission" with
      | none => rw [hsub] at h2; simp at h2
      | some sv =>
          cases sv with
          | obj sfields =>
              rw [hsub] at h2
              simp only at h2
              cases hc : aget? sfields "content" with
              | none => rw [hc] at h2; simp at h2
              | some c =>
                  rw [hc] at h2
                  exact ⟨c, by simp [getSubmissionContent, hsub, hc], h2⟩
          | null => rw [hsub] at h2; simp at h2
          | bool b => rw [hsub] at h2; simp at h2
          | int n => rw [hsub] at h2; simp at h2
          | str s => rw [hsub] at h2; simp at h2
          | arr l => rw [hsub] at h2; simp at h2
  | null => simp [submissionResponseValid] at h
  | bool b => simp [submissionResponseValid] at h
  | int n => simp [submissionResponseValid] at h
  | str s => simp [submissionResponseValid] at h
  | arr l => simp [submissionResponseValid] at h

/-- C3: a submission rejected by the topic's custom validator is never
appended by `add_submission` (the state is unchanged), and along the
whole `create_submission_task` pipeline every submission that does get
appended has schema-valid content and passed the validator — so a
submission whose content fails the topic's content schema, or which
fails the validator predicate, never enters the topic's submission
list. -/
theorem invalid_submission_never_appended
    (t : TopicState) (s : Submission) (respond : String → JsonVal)
    (contentValid : JsonVal → Bool) (invalidJsonMessage prompt uuid : String)
    (maxAttempts : ℕ) (hbad : t.validator s = false) :
    addSubmission t s = t ∧
    ∀ s2 ∈ (createSubmissionTask t respond contentValid invalidJsonMessage
        prompt maxAttempts uuid).submissions,
      s2 ∈ t.submissions ∨
        (contentValid s2.content = true ∧ t.validator s2 = true) := by
  constructor
  · simp [addSubmission, hbad]
  · intro s2 hs2
    unfold createSubmissionTask at hs2
    cases hcs : createSubmission respond contentValid t.validatorJson
        invalidJsonMessage t.invalidMessage prompt maxAttempts with
    | none => rw [hcs] at hs2; exact Or.inl hs2
    | some content =>
        rw [hcs] at hs2
        simp only at hs2
        unfold createSubmission at hcs
        cases hsend : (sendPromptWithRetries respond
            [(submissionResponseValid contentValid, invalidJsonMessage),
             (t.validatorJson, t.invalidMessage)] prompt maxAttempts 0).1 with
        | none => rw [hsend] at hcs; exact Option.noConfusion hcs
        | some r =>
            rw [hsend] at hcs
            simp only at hcs
            have hvalid : submissionResponseValid contentValid r = true :=
              sendPromptWithRetries_some_valid respond _ prompt maxAttempts 0 r
                hsend (submissionResponseValid contentValid, invalidJsonMessage)
                (by simp)
            obtain ⟨c, hc, hcv⟩ := submissionResponseValid_content hvalid
            have hceq : content = c := by
              rw [hc] at hcs
              exact (Option.some_inj.mp hcs).symm
            subst hceq
            unfold addSubmission at hs2
            by_cases hv : t.validator ⟨uuid, content⟩ = true
            · rw [if_pos hv] at hs2
              simp only at hs2
              rcases List.mem_append.mp hs2 with hmem | hnew
              · exact Or.inl hmem
              · rcases List.mem_singleton.mp hnew with rfl
                exact Or.inr ⟨hcv, hv⟩
            · rw [if_neg hv] at hs2
              exact Or.inl hs2

theorem invalid_submission_never_appended_witness :
    (({ validator := fun s => match s.content with
          | JsonVal.str _ => true
          | _ => false,
        validatorJson := fun _ => true,
        invalidMessage := "Submission is invalid.",
        submissions := [], submissionsQueue := [],
        votingSubmissionIds := [] } : TopicState).validator
      ⟨"uuid1", JsonVal.int 0⟩ = false) ∧
    addSubmission
      { validator := fun s => match s.content with
          | JsonVal.str _ => true
          | _ => false,
        validatorJson := fun _ => true,
        invalidMessage := "Submission is invalid.",
        submissions := [], submissionsQueue := [],
        votingSubmissionIds := [] }
      ⟨"uuid1", JsonVal.int 0⟩ =
      { validator := fun s => match s.content with
          | JsonVal.str _ => true
          | _ => false,
        validatorJson := fun _ => true,
        invalidMessage := "Submission is invalid.",
        submissions := [], submissionsQueue := [],
        votingSubmissionIds := [] } := by
  refine ⟨rfl, ?_⟩
  exact (invalid_submission_never_appended _ ⟨"uuid1", JsonVal.int 0⟩
    (fun _ => JsonVal.null) (fun _ => true) "invalid json" "prompt" "uuid2"
    3 rfl).1

/-!
## Vote storage: one vote per key in `votes_data`, but not in the label log
-/
theorem ahas_iff_mem_akeys {κ α : Type _} [DecidableEq κ]
    (d : List (κ × α)) (k : κ) : ahas d k = true ↔ k ∈ akeys d := by
  induction d with
  | nil => simp [ahas, akeys]
  | cons kv rest ih =>
      show (if kv.1 = k then true else ahas rest k) = true ↔
        k ∈ kv.1 :: akeys rest
      by_cases hk : kv.1 = k
      · simp [hk]
      · rw [if_neg hk, List.mem_cons, ih]
        constructor
        · exact Or.inr
        · rintro (h | h)
          · exact absurd h.symm hk
          · exact h

theorem akeys_nodup_aset {κ α : Type _} [DecidableEq κ]
    {d : List (κ × α)} (k : κ) (v : α)
    (h : (akeys d).Nodup) : (akeys (aset d k v)).Nodup := by
  rw [akeys_aset]
  split
  · exact h
  · rename_i hhas
    have hk : k ∉ akeys d := fun hm => hhas ((ahas_iff_mem_akeys d k).mpr hm)
    simp [List.nodup_append, h, hk]

theorem countP_key_le_one {α : Type _} (d : List (String × α)) (pid : String)
    (h : (akeys d).Nodup) : d.countP (fun kv => kv.1 == pid) ≤ 1 := by
  have h1 : d.countP (fun kv => kv.1 == pid) = (akeys d).count pid := by
    unfold akeys
    rw [List.count, List.countP_map]
    rfl
  rw [h1]
  exact List.nodup_iff_count_le_one.mp h pid

theorem foldl_preserves {σ β : Type _} (P : σ → Prop) (f : σ → β → σ)
    (hf : ∀ s b, P s → P (f s b)) :
    ∀ (l : List β) (s : σ), P s → P (l.foldl f s) := by
  intro l
  induction l with
  | nil => intro s hs; exact hs
  | cons b rest ih => intro s hs; exact ih _ (hf s b hs)

theorem labelAddVoteStep_preserves (pid : String) (now : ℤ)
    (acc : LabelResultsState × List (String × Payload)) (sv : String × Payload)
    (h : innerKeysNodup acc.1) :
    innerKeysNodup (labelAddVoteStep pid now acc sv).1 := by
  intro sid inner hin
  simp only [labelAddVoteStep] at hin
  by_cases hsid : sid = sv.1
  · subst hsid
    rw [aget?_aset_self] at hin
    cases hin
    apply akeys_nodup_aset
    cases hget : aget? acc.1.votesData sv.1 with
    | none => simp [akeys]
    | some i => simpa using h sv.1 i hget
  · rw [aget?_aset_ne _ _ _ _ hsid] at hin
    exact h sid inner hin

set_option maxHeartbeats 1000000 in
theorem labelAddVote_preserves_innerKeysNodup (st : LabelResultsState)
    (pid : String) (vd : List (String × Payload)) (now : ℤ)
    (h : innerKeysNodup st) : innerKeysNodup (labelAddVote st pid vd now).1 := by
  have hst0 : innerKeysNodup (if st.participants.contains pid then st
      else {st with participants := st.participants ++ [pid]}) := by
    split
    · exact h
    · intro sid inner hin
      exact h sid inner hin
  simp only [labelAddVote]
  exact foldl_preserves
    (fun acc : LabelResultsState × List (String × Payload) => innerKeysNodup acc.1)
    (labelAddVoteStep pid now)
    (fun acc sv hacc => labelAddVoteStep_preserves pid now acc sv hacc)
    vd ((if st.participants.contains pid then st
         else {st with participants := st.participants ++ [pid]}), []) hst0

theorem labelRunVotes_innerKeysNodup
    (calls : List (String × List (String × Payload) × ℤ)) :
    innerKeysNodup (labelRunVotes calls) := by
  unfold labelRunVotes
  suffices H : ∀ (cs : List (String × List (String × Payload) × ℤ))
      (st : LabelResultsState), innerKeysNodup st →
      innerKeysNodup
        (cs.foldl (fun st c => (labelAddVote st c.1 c.2.1 c.2.2).1) st) by
    apply H
    intro sid inner hin
    simp [initLabelResults] at hin
  intro cs
  induction cs with
  | nil => intro st hst; exact hst
  | cons c rest ih =>
      intro st hst
      rw [List.foldl_cons]
      exact ih _ (labelAddVote_preserves_innerKeysNodup st c.1 c.2.1 c.2.2 hst)

theorem compareAddVote_keys_nodup (st : CompareResultsState) (pid : String)
    (v : Payload) (now : ℤ) (h : (akeys st.votesData).Nodup) :
    (akeys ((compareAddVote st pid v now).1).votesData).Nodup := by
  simp only [compareAddVote]
  apply akeys_nodup_aset
  split
  · exact h
  · exact h

theorem compareRunVotes_keys_nodup (calls : List (String × Payload × ℤ)) :
    (akeys (compareRunVotes calls).votesData).Nodup := by
  unfold compareRunVotes
  suffices H : ∀ (cs : List (String × Payload × ℤ)) (st : CompareResultsState),
      (akeys st.votesData).Nodup →
      (akeys
        (cs.foldl (fun st c => (compareAddVote st c.1 c.2.1 c.2.2).1)
          st).votesData).Nodup by
    apply H
    simp [initCompareResults, akeys]
  intro cs
  induction cs with
  | nil => intro st hst; exact hst
  | cons c rest ih =>
      intro st hst
      rw [List.foldl_cons]
      exact ih _ (compareAddVote_keys_nodup st c.1 c.2.1 c.2.2 hst)

/-- C7 (amended): the raw `votes_data` stores — the ones the aggregates
are computed from — are last-write-wins with at most one vote per key:
a repeated vote from the same participant overwrites the stored payload
for that (submission, participant) cell (label) or that participant
(compare), and any state reachable by `add_vote` calls from a fresh
results object holds at most one `votes_data` entry per key.  (The
label family's serialization-side `submissions` log, by contrast,
appends a record on every call; see the counterexample.) -/
theorem votes_data_last_write_wins :
    (∀ (st : LabelResultsState) (pid sid : String) (v : Payload) (t : ℤ),
        aget? ((aget? ((labelAddVote st pid [(sid, v)] t).1).votesData
          sid).getD []) pid = some (stampPayload v t)) ∧
    (∀ (st : CompareResultsState) (pid : String) (v : Payload) (t : ℤ),
        aget? ((compareAddVote st pid v t).1).votesData pid =
          some (stampPayload v t)) ∧
    (∀ (calls : List (String × List (String × Payload) × ℤ)) (sid pid : String),
        ((aget? (labelRunVotes calls).votesData sid).getD []).countP
          (fun kv => kv.1 == pid) ≤ 1) ∧
    (∀ (calls : List (String × Payload × ℤ)) (pid : String),
        (compareRunVotes calls).votesData.countP (fun kv => kv.1 == pid) ≤ 1) := by
  refine ⟨?_, ?_, ?_, ?_⟩
  · intro st pid sid v t
    simp only [labelAddVote, List.foldl_cons, List.foldl_nil, labelAddVoteStep]
    rw [aget?_aset_self]
    simp only [Option.getD_some]
    rw [aget?_aset_self]
  · intro st pid v t
    simp only [compareAddVote]
    rw [aget?_aset_self]
  · intro calls sid pid
    cases hget : aget? (labelRunVotes calls).votesData sid with
    | none => simp
    | some inner =>
        simp only [Option.getD_some]
        exact countP_key_le_one inner pid
          (labelRunVotes_innerKeysNodup calls sid inner hget)
  · intro calls pid
    exact countP_key_le_one _ pid (compareRunVotes_keys_nodup calls)

/-- C7 counterexample: after two `add_vote` calls from the same
participant for the same submission, the label results' `submissions`
log — which `to_json` serializes — holds two vote records for that
(participant, submission) pair, so the stored voting results do not
retain at most one vote per key. -/
theorem label_submissions_log_duplicates_votes :
    ((aget? (labelRunVotes
        [("participant1", [("submission1", [("vote", JsonVal.str "yes")])], 0),
         ("participant1", [("submission1", [("vote", JsonVal.str "no")])], 1)]).submissions
      "submission1").getD []).countP (fun kv => kv.1 == "participant1") = 2 := rfl

/-!
## Aggregation: shared lookup and sorting lemmas
-/
theorem aget?_map_self_of_mem {κ α : Type _} [DecidableEq κ]
    (g : κ → α) {l : List κ} {k : κ} (h : k ∈ l) :
    aget? (l.map (fun a => (a, g a))) k = some (g k) := by
  induction l with
  | nil => cases h
  | cons x rest ih =>
      rw [List.map_cons, aget?_cons]
      by_cases hx : x = k
      · subst hx; simp
      · rw [if_neg hx]
        rcases List.mem_cons.mp h with rfl | hm
        · exact absurd rfl hx
        · exact ih hm

theorem akeys_map_keys {κ α : Type _} [DecidableEq κ]
    (g : κ → α) (l : List κ) :
    akeys (l.map (fun a => (a, g a))) = l := by
  unfold akeys
  rw [List.map_map]
  have h : (Prod.fst ∘ fun a => (a, g a)) = id := rfl
  rw [h, List.map_id]

theorem mapM_some_of_forall {α β : Type _} (f : α → Option β) (g : α → β) :
    ∀ (l : List α), (∀ a ∈ l, f a = some (g a)) → l.mapM f = some (l.map g) := by
  intro l
  induction l with
  | nil => intro _; rfl
  | cons x rest ih =>
      intro h
      rw [List.map_cons, List.mapM_cons, h x (by simp),
        ih (fun a ha => h a (by simp [ha]))]
      rfl

theorem mem_of_aget?_eq_some {κ α : Type _} [DecidableEq κ] :
    ∀ {d : List (κ × α)} {k : κ} {v : α}, aget? d k = some v → (k, v) ∈ d := by
  intro d
  induction d with
  | nil => intro k v h; exact Option.noConfusion h
  | cons kv rest ih =>
      intro k v h
      obtain ⟨k1, v1⟩ := kv
      rw [aget?_cons] at h
      dsimp only at h
      by_cases hk : k1 = k
      · subst hk
        rw [if_pos rfl] at h
        cases h
        exact List.mem_cons_self _ _
      · rw [if_neg hk] at h
        exact List.mem_cons.mpr (Or.inr (ih h))

theorem aget?_eq_some_iff_mem {κ α : Type _} [DecidableEq κ] :
    ∀ {d : List (κ × α)}, (akeys d).Nodup → ∀ {k : κ} {v : α},
      (aget? d k = some v ↔ (k, v) ∈ d) := by
  intro d
  induction d with
  | nil => intro _ k v; simp [aget?]
  | cons kv rest ih =>
      intro hnd k v
      obtain ⟨k1, v1⟩ := kv
      have hnd2 : (akeys rest).Nodup := (List.nodup_cons.mp hnd).2
      have hni : k1 ∉ akeys rest := (List.nodup_cons.mp hnd).1
      rw [aget?_cons, List.mem_cons]
      dsimp only
      by_cases hk : k1 = k
      · subst hk
        rw [if_pos rfl]
        constructor
        · intro h
          cases h
          exact Or.inl rfl
        · rintro (h | h)
          · cases h
            rfl
          · exfalso
            apply hni
            exact List.mem_map.mpr ⟨(k1, v), h, rfl⟩
      · rw [if_neg hk, ih hnd2]
        constructor
        · exact Or.inr
        · rintro (h | h)
          · cases h
            exact absurd rfl hk
          · exact h

theorem aget?_of_perm {κ α : Type _} [DecidableEq κ] {d e : List (κ × α)}
    (hperm : d.Perm e) (hnd : (akeys d).Nodup) (k : κ) :
    aget? d k = aget? e k := by
  have hnde : (akeys e).Nodup := ((hperm.map Prod.fst).nodup_iff).mp hnd
  cases hv : aget? d k with
  | some v =>
      have hm : (k, v) ∈ e := hperm.subset (aget?_eq_some_iff_mem hnd |>.mp hv)
      exact ((aget?_eq_some_iff_mem hnde).mpr hm).symm
  | none =>
      cases hw : aget? e k with
      | none => rfl
      | some w =>
          have hm : (k, w) ∈ d :=
            hperm.symm.subset (aget?_eq_some_iff_mem hnde |>.mp hw)
          rw [(aget?_eq_some_iff_mem hnd).mpr hm] at hv
          exact Option.noConfusion hv

theorem pairwise_value_le_insertionSort (l : List (String × ℤ)) :
    List.Pairwise (fun (a b : String × ℤ) => a.2 ≤ b.2)
      (List.insertionSort (fun a b => a.2 ≤ b.2) l) := by
  haveI : IsTotal (String × ℤ) (fun a b => a.2 ≤ b.2) :=
    ⟨fun a b => le_total a.2 b.2⟩
  haveI : IsTrans (String × ℤ) (fun a b => a.2 ≤ b.2) :=
    ⟨fun _ _ _ hab hbc => le_trans hab hbc⟩
  exact List.sorted_insertionSort _ l

/-- The shared tail of both compare reductions, resolved: when a
division will happen, it succeeds exactly when there is at least one
voter, preserves every submission's entry (up to rounding the average),
and sorts entries by ascending value. -/
theorem compareSortRound_eq (totals : List (String × ℤ)) (vc : ℕ)
    (hnd : (akeys totals).Nodup) (hvc : vc ≠ 0) :
    ∃ r, compareSortRound totals vc = some r ∧
      (∀ k, aget? r k =
        (aget? totals k).map (fun total => pyRound3Milli total (vc : ℤ))) ∧
      List.Pairwise (fun (a b : String × ℤ) => a.2 ≤ b.2) r := by
  by_cases hemp : totals.isEmpty
  · have he : totals = [] := by
      cases totals with
      | nil => rfl
      | cons x rest => simp [List.isEmpty] at hemp
    subst he
    exact ⟨[], by simp [compareSortRound], fun k => by simp [aget?], by simp⟩
  · unfold compareSortRound
    rw [if_neg hemp, if_neg hvc]
    refine ⟨_, rfl, ?_, ?_⟩
    · intro k
      have hperm := List.perm_insertionSort
        (fun (a b : String × ℤ) => a.2 ≤ b.2) totals
      have hnds : (akeys (List.insertionSort
          (fun (a b : String × ℤ) => a.2 ≤ b.2) totals)).Nodup :=
        ((hperm.map Prod.fst).nodup_iff).mpr hnd
      rw [aget?_mapVal (fun _ total => pyRound3Milli total (vc : ℤ))]
      rw [aget?_of_perm hperm hnds k]
    · have hmono : ∀ a b : String × ℤ, a.2 ≤ b.2 →
          (a.1, pyRound3Milli a.2 (vc : ℤ)).2 ≤
            (b.1, pyRound3Milli b.2 (vc : ℤ)).2 := by
        intro a b hab
        exact pyRound3Milli_mono (by exact_mod_cast Nat.pos_of_ne_zero hvc) hab
      exact List.Pairwise.map _ hmono (pairwise_value_le_insertionSort totals)

theorem rankContrib_cons (indexMap : List (ℤ × String)) (sid : String)
    (item : JsonVal) (rest : List JsonVal) (rank : ℕ) :
    rankContrib indexMap sid (item :: rest) rank =
      (if (match item with
           | JsonVal.int n => aget? indexMap n
           | _ => none) = some sid
       then (rank : ℤ) else 0) + rankContrib indexMap sid rest (rank + 1) := rfl

/-- Effect of one ranking vote on the totals: it succeeds when every
entry is an integer mapping to a submission present in the totals, it
preserves the key set, and it adds to each submission the sum of the
rank positions whose entry maps to it. -/
theorem rankingApplyVote_eq (indexMap : List (ℤ × String)) :
    ∀ (items : List JsonVal) (rank : ℕ) (totals : List (String × ℤ)),
      (∀ it ∈ items, ∃ n sid, it = JsonVal.int n ∧
        aget? indexMap n = some sid ∧ sid ∈ akeys totals) →
      ∃ totals2, rankingApplyVote indexMap items rank totals = some totals2 ∧
        akeys totals2 = akeys totals ∧
        ∀ k, aget? totals2 k =
          (aget? totals k).map (· + rankContrib indexMap k items rank) := by
  intro items
  induction items with
  | nil =>
      intro rank totals _
      refine ⟨totals, rfl, rfl, ?_⟩
      intro k
      cases aget? totals k <;> simp [rankContrib]
  | cons it rest ih =>
      intro rank totals h
      obtain ⟨n, sid, rfl, hmap, hmem⟩ := h it (by simp)
      have hhas : ahas totals sid = true := (ahas_iff_mem_akeys _ _).mpr hmem
      have hb : (abump totals sid (rank : ℤ)).isSome :=
        (abump_isSome_iff _ _ _).mpr hhas
      obtain ⟨t1, ht1⟩ := Option.isSome_iff_exists.mp hb
      have hkeys1 : akeys t1 = akeys totals := akeys_abump ht1
      have hrest : ∀ it ∈ rest, ∃ n2 sid2, it = JsonVal.int n2 ∧
          aget? indexMap n2 = some sid2 ∧ sid2 ∈ akeys t1 := by
        intro it2 hit
        obtain ⟨n2, sid2, he, hm2, hmem2⟩ := h it2 (by simp [hit])
        exact ⟨n2, sid2, he, hm2, by rw [hkeys1]; exact hmem2⟩
      obtain ⟨t2, ht2, hkeys2, hvals⟩ := ih (rank + 1) t1 hrest
      refine ⟨t2, ?_, by rw [hkeys2, hkeys1], ?_⟩
      · simp [rankingApplyVote, hmap, ht1, ht2]
      · intro k
        rw [hvals k, rankContrib_cons]
        by_cases hk : k = sid
        · subst hk
          rw [aget?_abump_self ht1]
          rw [if_pos (by rw [show (match JsonVal.int n with
              | JsonVal.int n => aget? indexMap n
              | _ => none) = aget? indexMap n from rfl]; exact hmap)]
          cases aget? totals k with
          | none => simp
          | some v => simp [add_assoc]
        · rw [aget?_abump_ne ht1 hk]
          rw [if_neg (by
            rw [show (match JsonVal.int n with
              | JsonVal.int n => aget? indexMap n
              | _ => none) = aget? indexMap n from rfl, hmap]
            intro hc
            exact hk (Option.some_inj.mp hc).symm)]
          cases aget? totals k with
          | none => simp
          | some v => simp

/-- Folding all voters: one voter-count bump and one totals pass per
recorded vote. -/
theorem rankingVotersFold_eq (indexMap : List (ℤ × String)) :
    ∀ (data : CompareVotesData) (totals : List (String × ℤ)) (c : ℕ),
      (∀ pv ∈ data, ∃ items, aget? pv.2 "vote" = some (JsonVal.arr items) ∧
        ∀ it ∈ items, ∃ n sid, it = JsonVal.int n ∧
          aget? indexMap n = some sid ∧ sid ∈ akeys totals) →
      ∃ totals2,
        data.foldlM (rankingVoterStep indexMap) (totals, c) =
          some (totals2, c + data.length) ∧
        akeys totals2 = akeys totals ∧
        ∀ k, aget? totals2 k = (aget? totals k).map
          (· + (data.map
            (fun pv => rankContrib indexMap k (voteItems pv.2) 0)).sum) := by
  intro data
  induction data with
  | nil =>
      intro totals c _
      refine ⟨totals, by simp, rfl, ?_⟩
      intro k
      cases aget? totals k <;> simp
  | cons pv rest ih =>
      intro totals c h
      obtain ⟨items, hvote, hitems⟩ := h pv (by simp)
      obtain ⟨t1, ht1, hkeys1, hvals1⟩ :=
        rankingApplyVote_eq indexMap items 0 totals hitems
      have hrest : ∀ pv2 ∈ rest, ∃ items2,
          aget? pv2.2 "vote" = some (JsonVal.arr items2) ∧
          ∀ it ∈ items2, ∃ n sid, it = JsonVal.int n ∧
            aget? indexMap n = some sid ∧ sid ∈ akeys t1 := by
        intro pv2 hpv
        obtain ⟨items2, hv2, hits2⟩ := h pv2 (by simp [hpv])
        refine ⟨items2, hv2, ?_⟩
        intro it hit
        obtain ⟨n, sid, he, hm, hmem⟩ := hits2 it hit
        exact ⟨n, sid, he, hm, by rw [hkeys1]; exact hmem⟩
      obtain ⟨t2, ht2, hkeys2, hvals2⟩ := ih t1 (c + 1) hrest
      have hvi : voteItems pv.2 = items := by simp [voteItems, hvote]
      have hstep : rankingVoterStep indexMap (totals, c) pv = some (t1, c + 1) := by
        simp [rankingVoterStep, hvote, ht1]
      refine ⟨t2, ?_, by rw [hkeys2, hkeys1], ?_⟩
      · rw [List.foldlM_cons, hstep]
        simp only [Option.bind_eq_bind, Option.some_bind]
        rw [ht2]
        simp only [List.length_cons, Option.some.injEq, Prod.mk.injEq, true_and]
        omega
      · intro k
        rw [hvals2 k, hvals1 k]
        cases aget? totals k with
        | none => simp
        | some v => simp [hvi, add_assoc]

/-- `RankingCompare.process_votes` with at least one voter and votes
whose entries all map to eligible submissions: it succeeds, every
eligible submission id has an aggregate entry — the rounded average of
its rank contributions — and entries are sorted by ascending value. -/
theorem rankingProcessVotes_eq (indexMap : List (ℤ × String))
    (data : CompareVotesData) (ids : List String)
    (hnd : ids.Nodup) (hne : data ≠ [])
    (hdata : ∀ pv ∈ data, ∃ items,
      aget? pv.2 "vote" = some (JsonVal.arr items) ∧
      ∀ it ∈ items, ∃ n sid, it = JsonVal.int n ∧
        aget? indexMap n = some sid ∧ sid ∈ ids) :
    ∃ r, rankingCompareProcessVotes indexMap data ids = some r ∧
      (∀ sid ∈ ids, aget? r sid = some (pyRound3Milli
        ((data.map
          (fun pv => rankContrib indexMap sid (voteItems pv.2) 0)).sum)
        (data.length : ℤ))) ∧
      List.Pairwise (fun (a b : String × ℤ) => a.2 ≤ b.2) r := by
  have hkeys0 : akeys (ids.map (fun sid => (sid, (0 : ℤ)))) = ids :=
    akeys_map_keys _ _
  have hdata2 : ∀ pv ∈ data, ∃ items,
      aget? pv.2 "vote" = some (JsonVal.arr items) ∧
      ∀ it ∈ items, ∃ n sid, it = JsonVal.int n ∧
        aget? indexMap n = some sid ∧
        sid ∈ akeys (ids.map (fun sid => (sid, (0 : ℤ)))) := by
    intro pv hpv
    obtain ⟨items, hv, hits⟩ := hdata pv hpv
    refine ⟨items, hv, ?_⟩
    intro it hit
    obtain ⟨n, sid, he, hm, hmem⟩ := hits it hit
    exact ⟨n, sid, he, hm, by rw [hkeys0]; exact hmem⟩
  obtain ⟨totals2, hfold, hkeys2, hvals2⟩ :=
    rankingVotersFold_eq indexMap data (ids.map (fun sid => (sid, (0 : ℤ)))) 0
      hdata2
  have hnd2 : (akeys totals2).Nodup := by rw [hkeys2, hkeys0]; exact hnd
  have hvc : data.length ≠ 0 := fun h0 => hne (List.length_eq_zero.mp h0)
  obtain ⟨r, hsort, hlook, hpair⟩ :=
    compareSortRound_eq totals2 data.length hnd2 hvc
  refine ⟨r, ?_, ?_, hpair⟩
  · unfold rankingCompareProcessVotes
    rw [hfold]
    simp only [Option.bind_eq_bind, Option.some_bind]
    simpa [Nat.zero_add] using hsort
  · intro sid hsid
    rw [hlook sid, hvals2 sid, aget?_map_self_of_mem (fun _ => (0 : ℤ)) hsid]
    simp

/-!
## Ranking: bridging rank contributions to 0-based rank positions
-/
theorem rankContrib_map_int (indexMap : List (ℤ × String)) (sid : String) :
    ∀ (l : List ℤ) (rank : ℕ),
      rankContrib indexMap sid (l.map JsonVal.int) rank =
        intRankContrib (fun n => decide (aget? indexMap n = some sid)) l rank := by
  intro l
  induction l with
  | nil => intro rank; rfl
  | cons n rest ih =>
      intro rank
      rw [List.map_cons, rankContrib_cons]
      show _ = (if decide (aget? indexMap n = some sid) then (rank : ℤ) else 0) +
        intRankContrib _ rest (rank + 1)
      rw [ih]
      congr 1
      by_cases hc : aget? indexMap n = some sid <;> simp [hc]

theorem intRankContrib_of_all_false (cond : ℤ → Bool) :
    ∀ (l : List ℤ) (rank : ℕ), (∀ n ∈ l, cond n = false) →
      intRankContrib cond l rank = 0 := by
  intro l
  induction l with
  | nil => intro rank _; rfl
  | cons n rest ih =>
      intro rank h
      show (if cond n then (rank : ℤ) else 0) + intRankContrib cond rest (rank + 1) = 0
      rw [h n (by simp), ih (rank + 1) (fun m hm => h m (by simp [hm]))]
      simp

theorem intRankContrib_unique (cond : ℤ → Bool) (target : ℤ) :
    ∀ (l : List ℤ) (rank : ℕ), l.Nodup → target ∈ l →
      (∀ n ∈ l, (cond n = true ↔ n = target)) →
      intRankContrib cond l rank = (rank : ℤ) + (l.indexOf target : ℤ) := by
  intro l
  induction l with
  | nil => intro rank _ h; cases h
  | cons n rest ih =>
      intro rank hnd hmem hcond
      show (if cond n then (rank : ℤ) else 0) + intRankContrib cond rest (rank + 1) = _
      by_cases hn : n = target
      · subst hn
        have hcn : cond n = true := (hcond n (by simp)).mpr rfl
        have hrest0 : ∀ m ∈ rest, cond m = false := by
          intro m hm
          cases hcm : cond m with
          | false => rfl
          | true =>
              have hmt : m = n := (hcond m (by simp [hm])).mp hcm
              subst hmt
              exact absurd hm (List.nodup_cons.mp hnd).1
        rw [if_pos hcn, intRankContrib_of_all_false cond rest (rank + 1) hrest0,
          List.indexOf_cons_self]
        simp
      · have hcn : cond n = false := by
          cases hcm : cond n with
          | true => exact absurd ((hcond n (by simp)).mp hcm) hn
          | false => rfl
        have hmem2 : target ∈ rest := by
          rcases List.mem_cons.mp hmem with h | h
          · exact absurd h.symm hn
          · exact h
        rw [hcn, if_neg (by simp), ih (rank + 1) (List.nodup_cons.mp hnd).2 hmem2
          (fun m hm => hcond m (by simp [hm])),
          List.indexOf_cons_ne rest (fun hh => hn hh)]
        push_cast
        ring

theorem submissionIndexMap_cons (x : String) (xs : List String) :
    submissionIndexMap (x :: xs) =
      (1, x) :: (submissionIndexMap xs).map (fun p => (p.1 + 1, p.2)) := by
  unfold submissionIndexMap
  rw [List.length_cons, List.range_succ_eq_map, List.zip_cons_cons, List.map_cons]
  congr 1
  rw [List.zip_map_left, List.map_map, List.map_map]
  apply List.map_congr_left
  intro p _
  simp [Prod.map]

theorem aget?_shiftMap (m : List (ℤ × String)) (n : ℤ) :
    aget? (m.map (fun p => (p.1 + 1, p.2))) n = aget? m (n - 1) := by
  induction m with
  | nil => rfl
  | cons p rest ih =>
      rw [List.map_cons, aget?_cons, aget?_cons]
      dsimp only
      by_cases hp : p.1 + 1 = n
      · rw [if_pos hp, if_pos (by omega)]
      · rw [if_neg hp, if_neg (by omega), ih]

theorem submissionIndexMap_lookup :
    ∀ (ids : List String), ids.Nodup → ∀ (n : ℤ) (sid : String),
      (aget? (submissionIndexMap ids) n = some sid ↔
        sid ∈ ids ∧ n = (ids.indexOf sid : ℤ) + 1) := by
  intro ids
  induction ids with
  | nil => intro _ n sid; simp [submissionIndexMap, aget?]
  | cons x xs ih =>
      intro hnd n sid
      rw [submissionIndexMap_cons, aget?_cons]
      dsimp only
      by_cases h1 : (1 : ℤ) = n
      · rw [if_pos h1]
        subst h1
        constructor
        · intro h
          cases h
          refine ⟨by simp, ?_⟩
          rw [List.indexOf_cons_self]
          simp
        · rintro ⟨hmem, heq⟩
          have h0 : List.indexOf sid (x :: xs) = 0 := by omega
          by_cases hsx : x = sid
          · rw [hsx]
          · rw [List.indexOf_cons_ne xs (fun hh => hsx hh)] at h0
            exact absurd h0 (Nat.succ_ne_zero _)
      · rw [if_neg h1, aget?_shiftMap, ih (List.nodup_cons.mp hnd).2 (n - 1) sid]
        constructor
        · rintro ⟨hmem, heq⟩
          have hx : x ≠ sid := by
            intro hh
            subst hh
            exact (List.nodup_cons.mp hnd).1 hmem
          refine ⟨List.mem_cons.mpr (Or.inr hmem), ?_⟩
          rw [List.indexOf_cons_ne xs hx]
          push_cast
          omega
        · rintro ⟨hmem, heq⟩
          rcases List.mem_cons.mp hmem with rfl | hmem2
          · rw [List.indexOf_cons_self] at heq
            simp at heq
            exact absurd heq.symm h1
          · have hx : x ≠ sid := by
              intro hh
              subst hh
              exact (List.nodup_cons.mp hnd).1 hmem2
            rw [List.indexOf_cons_ne xs hx] at heq
            refine ⟨hmem2, ?_⟩
            push_cast at heq ⊢
            omega

theorem submissionIndexMap_covers :
    ∀ (ids : List String) (n : ℤ), 1 ≤ n → n ≤ ids.length →
      ∃ sid, aget? (submissionIndexMap ids) n = some sid ∧ sid ∈ ids := by
  intro ids
  induction ids with
  | nil =>
      intro n h1 h2
      simp at h2
      omega
  | cons x xs ih =>
      intro n h1 h2
      rw [submissionIndexMap_cons, aget?_cons]
      dsimp only
      by_cases hn : (1 : ℤ) = n
      · rw [if_pos hn]
        exact ⟨x, rfl, by simp⟩
      · rw [if_neg hn, aget?_shiftMap]
        rw [List.length_cons] at h2
        obtain ⟨sid, hs, hm⟩ := ih (n - 1) (by omega) (by push_cast at h2 ⊢; omega)
        exact ⟨sid, hs, by simp [hm]⟩

theorem mem_oneToN (N : ℕ) (n : ℤ) : n ∈ oneToN N ↔ 1 ≤ n ∧ n ≤ N := by
  unfold oneToN
  rw [List.mem_map]
  constructor
  · rintro ⟨j, hj, rfl⟩
    rw [List.mem_range] at hj
    omega
  · rintro ⟨h1, h2⟩
    refine ⟨(n - 1).toNat, ?_, ?_⟩
    · rw [List.mem_range]
      omega
    · omega

theorem oneToN_nodup (N : ℕ) : (oneToN N).Nodup := by
  unfold oneToN
  apply List.Nodup.map
  · intro a b hab
    simp only at hab
    omega
  · exact List.nodup_range N

theorem forall₂_mem_left {α β : Type _} {R : α → β → Prop} :
    ∀ {as : List α} {bs : List β}, List.Forall₂ R as bs →
      ∀ a ∈ as, ∃ b ∈ bs, R a b := by
  intro as bs h
  induction h with
  | nil => intro a ha; cases ha
  | @cons a b as2 bs2 hR _hrest ih =>
      intro a2 ha2
      rcases List.mem_cons.mp ha2 with rfl | hm
      · exact ⟨b, by simp, hR⟩
      · obtain ⟨b2, hb2, hr2⟩ := ih a2 hm
        exact ⟨b2, by simp [hb2], hr2⟩

theorem ranking_sum_bridge (ids : List String) (sid : String)
    (hnd : ids.Nodup) (hsid : sid ∈ ids) :
    ∀ (data : CompareVotesData) (votes : List (List ℤ)),
      List.Forall₂ (fun (pv : String × Payload) (l : List ℤ) =>
        aget? pv.2 "vote" = some (JsonVal.arr (l.map JsonVal.int))) data votes →
      (∀ l ∈ votes, l.Perm (oneToN ids.length)) →
      (data.map (fun pv =>
        rankContrib (submissionIndexMap ids) sid (voteItems pv.2) 0)).sum =
      (votes.map (fun l =>
        ((l.indexOf ((ids.indexOf sid : ℤ) + 1) : ℕ) : ℤ))).sum := by
  intro data votes hmatch
  induction hmatch with
  | nil => intro _; rfl
  | @cons pv l data2 votes2 hR hrest ihm =>
      intro hperm
      rw [List.map_cons, List.map_cons, List.sum_cons, List.sum_cons]
      have hperm_l : l.Perm (oneToN ids.length) := hperm l (by simp)
      congr 1
      · have hvi : voteItems pv.2 = l.map JsonVal.int := by simp [voteItems, hR]
        rw [hvi, rankContrib_map_int]
        have htarget : ((ids.indexOf sid : ℤ) + 1) ∈ l := by
          rw [hperm_l.mem_iff, mem_oneToN]
          have hlt : ids.indexOf sid < ids.length :=
            List.indexOf_lt_length.mpr hsid
          omega
        have hlnd : l.Nodup := (hperm_l.nodup_iff).mpr (oneToN_nodup _)
        have hcond : ∀ n ∈ l,
            (decide (aget? (submissionIndexMap ids) n = some sid) = true ↔
              n = (ids.indexOf sid : ℤ) + 1) := by
          intro n _
          rw [decide_eq_true_eq, submissionIndexMap_lookup ids hnd n sid]
          constructor
          · rintro ⟨_, h⟩
            exact h
          · intro h
            exact ⟨hsid, h⟩
        rw [intRankContrib_unique _ _ l 0 hlnd htarget hcond]
        simp
      · exact ihm (fun l2 hl2 => hperm l2 (by simp [hl2]))

/-- C4: `RankingCompare.process_votes` maps each eligible submission to
the sum over all voters of that submission's 0-based rank position
(the position of the submission's 1-based index in the voter's
permutation) divided by the number of voters, rounded to 3 decimals
(values in thousandths here), with entries sorted ascending. -/
theorem ranking_compare_average_rank (ids : List String)
    (data : CompareVotesData) (votes : List (List ℤ))
    (hnd : ids.Nodup) (hne : data ≠ [])
    (hmatch : List.Forall₂ (fun (pv : String × Payload) (l : List ℤ) =>
      aget? pv.2 "vote" = some (JsonVal.arr (l.map JsonVal.int))) data votes)
    (hperm : ∀ l ∈ votes, l.Perm (oneToN ids.length)) :
    ∃ r, rankingCompareProcessVotes (submissionIndexMap ids) data ids = some r ∧
      (∀ sid ∈ ids, aget? r sid = some (pyRound3Milli
        ((votes.map (fun l =>
          ((l.indexOf ((ids.indexOf sid : ℤ) + 1) : ℕ) : ℤ))).sum)
        (data.length : ℤ))) ∧
      List.Pairwise (fun (a b : String × ℤ) => a.2 ≤ b.2) r := by
  have hdata : ∀ pv ∈ data, ∃ items,
      aget? pv.2 "vote" = some (JsonVal.arr items) ∧
      ∀ it ∈ items, ∃ n sid, it = JsonVal.int n ∧
        aget? (submissionIndexMap ids) n = some sid ∧ sid ∈ ids := by
    intro pv hpv
    obtain ⟨l, hl, hvote⟩ := forall₂_mem_left hmatch pv hpv
    refine ⟨l.map JsonVal.int, hvote, ?_⟩
    intro it hit
    rw [List.mem_map] at hit
    obtain ⟨n, hn, rfl⟩ := hit
    have hn2 : n ∈ oneToN ids.length := (hperm l hl).subset hn
    rw [mem_oneToN] at hn2
    obtain ⟨sid2, hs, hm⟩ := submissionIndexMap_covers ids n hn2.1 hn2.2
    exact ⟨n, sid2, rfl, hs, hm⟩
  obtain ⟨r, hr, hlook, hpair⟩ :=
    rankingProcessVotes_eq (submissionIndexMap ids) data ids hnd hne hdata
  refine ⟨r, hr, ?_, hpair⟩
  intro sid hsid
  rw [hlook sid hsid,
    ranking_sum_bridge ids sid hnd hsid data votes hmatch hperm]

theorem ranking_compare_average_rank_witness :
    rankingCompareProcessVotes
      (submissionIndexMap ["submission1", "submission2", "submission3"])
      [("p1", [("vote",
          JsonVal.arr [JsonVal.int 1, JsonVal.int 2, JsonVal.int 3])]),
       ("p2", [("vote",
          JsonVal.arr [JsonVal.int 2, JsonVal.int 1, JsonVal.int 3])]),
       ("p3", [("vote",
          JsonVal.arr [JsonVal.int 3, JsonVal.int 2, JsonVal.int 1])])]
      ["submission1", "submission2", "submission3"] =
      some [("submission2", 667), ("submission1", 1000), ("submission3", 1333)] ∧
    (∃ r, rankingCompareProcessVotes
      (submissionIndexMap ["submission1", "submission2", "submission3"])
      [("p1", [("vote",
          JsonVal.arr [JsonVal.int 1, JsonVal.int 2, JsonVal.int 3])]),
       ("p2", [("vote",
          JsonVal.arr [JsonVal.int 2, JsonVal.int 1, JsonVal.int 3])]),
       ("p3", [("vote",
          JsonVal.arr [JsonVal.int 3, JsonVal.int 2, JsonVal.int 1])])]
      ["submission1", "submission2", "submission3"] = some r ∧
      (∀ sid ∈ (["submission1", "submission2", "submission3"] : List String),
        aget? r sid = some (pyRound3Milli
          (([[1, 2, 3], [2, 1, 3], [3, 2, 1]].map (fun (l : List ℤ) =>
            ((l.indexOf
              ((["submission1", "submission2", "submission3"].indexOf sid : ℤ)
                + 1) : ℕ) : ℤ))).sum) 3)) ∧
      List.Pairwise (fun (a b : String × ℤ) => a.2 ≤ b.2) r) := by
  constructor
  · rfl
  · exact ranking_compare_average_rank
      ["submission1", "submission2", "submission3"]
      [("p1", [("vote",
          JsonVal.arr [JsonVal.int 1, JsonVal.int 2, JsonVal.int 3])]),
       ("p2", [("vote",
          JsonVal.arr [JsonVal.int 2, JsonVal.int 1, JsonVal.int 3])]),
       ("p3", [("vote",
          JsonVal.arr [JsonVal.int 3, JsonVal.int 2, JsonVal.int 1])])]
      [[1, 2, 3], [2, 1, 3], [3, 2, 1]]
      (by decide) (List.cons_ne_nil _ _)
      (List.Forall₂.cons rfl (List.Forall₂.cons rfl
        (List.Forall₂.cons rfl List.Forall₂.nil)))
      (by
        intro l hl
        simp at hl
        rcases hl with rfl | rfl | rfl <;> decide)

/-!
## Label aggregation: coverage of the eligible id set
-/
theorem enumVoteStep_eq (enumValues : List String)
    (results : List (String × List (String × ℤ))) (sid : String)
    (pv : String × Payload) (s : String)
    (hvote : aget? pv.2 "vote" = some (JsonVal.str s))
    (hs : s ∈ enumValues)
    (hhas : ahas results sid = true)
    (hinv : ∀ sid2 counts, aget? results sid2 = some counts →
      akeys counts = enumValues) :
    ∃ results2, enumVoteStep results sid pv = some results2 ∧
      akeys results2 = akeys results ∧
      (∀ sid2 counts, aget? results2 sid2 = some counts →
        akeys counts = enumValues) ∧
      (∀ sid2, sid2 ≠ sid → aget? results2 sid2 = aget? results sid2) := by
  have hcs : (aget? results sid).isSome := by
    rw [← ahas_iff_aget?_isSome]
    exact hhas
  obtain ⟨counts, hc⟩ := Option.isSome_iff_exists.mp hcs
  have hck : akeys counts = enumValues := hinv sid counts hc
  have hbs : (abump counts s 1).isSome := (abump_isSome_iff _ _ _).mpr
    (by rw [ahas_iff_mem_akeys, hck]; exact hs)
  obtain ⟨counts2, hb⟩ := Option.isSome_iff_exists.mp hbs
  refine ⟨aset results sid counts2, ?_, ?_, ?_, ?_⟩
  · simp [enumVoteStep, hvote, hc, hb]
  · rw [akeys_aset, if_pos hhas]
  · intro sid2 c2 hc2
    by_cases h2 : sid2 = sid
    · subst h2
      rw [aget?_aset_self] at hc2
      cases hc2
      rw [akeys_abump hb]
      exact hck
    · rw [aget?_aset_ne _ _ _ _ h2] at hc2
      exact hinv sid2 c2 hc2
  · intro sid2 h2
    exact aget?_aset_ne _ _ _ _ h2

theorem enumInnerFold_eq (enumValues : List String) (sid : String) :
    ∀ (votes : List (String × Payload))
      (results : List (String × List (String × ℤ))),
      ahas results sid = true →
      (∀ sid2 counts, aget? results sid2 = some counts →
        akeys counts = enumValues) →
      (∀ pv ∈ votes, ∃ s, aget? pv.2 "vote" = some (JsonVal.str s) ∧
        s ∈ enumValues) →
      ∃ results2,
        votes.foldlM (fun r pv => enumVoteStep r sid pv) results =
          some results2 ∧
        akeys results2 = akeys results ∧
        (∀ sid2 counts, aget? results2 sid2 = some counts →
          akeys counts = enumValues) ∧
        (∀ sid2, sid2 ≠ sid → aget? results2 sid2 = aget? results sid2) := by
  intro votes
  induction votes with
  | nil =>
      intro results _ hinv _
      exact ⟨results, rfl, rfl, hinv, fun _ _ => rfl⟩
  | cons pv rest ih =>
      intro results hhas hinv hv
      obtain ⟨s, hvote, hs⟩ := hv pv (by simp)
      obtain ⟨r1, h1, hk1, hinv1, hne1⟩ :=
        enumVoteStep_eq enumValues results sid pv s hvote hs hhas hinv
      have hhas1 : ahas r1 sid = true := by
        rw [ahas_iff_mem_akeys, hk1]
        exact (ahas_iff_mem_akeys results sid).mp hhas
      obtain ⟨r2, h2, hk2, hinv2, hne2⟩ :=
        ih r1 hhas1 hinv1 (fun pv2 hp => hv pv2 (by simp [hp]))
      refine ⟨r2, ?_, by rw [hk2, hk1], hinv2, ?_⟩
      · rw [List.foldlM_cons, h1]
        simpa using h2
      · intro sid2 h2ne
        rw [hne2 sid2 h2ne, hne1 sid2 h2ne]

theorem enumOuterFold_eq (enumValues : List String) :
    ∀ (data : LabelVotesData)
      (results : List (String × List (String × ℤ))),
      (∀ sid2 counts, aget? results sid2 = some counts →
        akeys counts = enumValues) →
      (∀ entry ∈ data, entry.1 ∈ akeys results ∧
        ∀ pv ∈ entry.2, ∃ s, aget? pv.2 "vote" = some (JsonVal.str s) ∧
          s ∈ enumValues) →
      ∃ results2,
        data.foldlM (fun results entry =>
          entry.2.foldlM (fun r pv => enumVoteStep r entry.1 pv) results)
          results = some results2 ∧
        akeys results2 = akeys results ∧
        (∀ sid2 counts, aget? results2 sid2 = some counts →
          akeys counts = enumValues) ∧
        (∀ sid, sid ∉ data.map Prod.fst →
          aget? results2 sid = aget? results sid) := by
  intro data
  induction data with
  | nil =>
      intro results hinv _
      exact ⟨results, rfl, rfl, hinv, fun _ _ => rfl⟩
  | cons entry rest ih =>
      intro results hinv hd
      obtain ⟨hmem, hv⟩ := hd entry (by simp)
      obtain ⟨r1, h1, hk1, hinv1, hne1⟩ :=
        enumInnerFold_eq enumValues entry.1 entry.2 results
          ((ahas_iff_mem_akeys _ _).mpr hmem) hinv hv
      obtain ⟨r2, h2, hk2, hinv2, hne2⟩ := ih r1 hinv1
        (fun e he => ⟨by rw [hk1]; exact (hd e (by simp [he])).1,
          (hd e (by simp [he])).2⟩)
      refine ⟨r2, ?_, by rw [hk2, hk1], hinv2, ?_⟩
      · rw [List.foldlM_cons, h1]
        simpa using h2
      · intro sid hsid
        have hs1 : sid ∉ rest.map Prod.fst := fun hh => hsid (by simp [hh])
        have hsne : sid ≠ entry.1 := fun hh => hsid (by simp [hh])
        rw [hne2 sid hs1, hne1 sid hsne]

/-- `EnumLabel.process_votes` over well-formed recorded data (every voted
submission is eligible, every vote value is one of the enum values):
it succeeds, its keys are exactly the eligible ids, every eligible id
has a per-value counts entry, and an id with no votes keeps the
zero-filled counts. -/
theorem enumLabelProcessVotes_eq (enumValues : List String)
    (votesData : LabelVotesData) (ids : List String)
    (hsub : ∀ entry ∈ votesData, entry.1 ∈ ids)
    (hvals : ∀ entry ∈ votesData, ∀ pv ∈ entry.2,
      ∃ s, aget? pv.2 "vote" = some (JsonVal.str s) ∧ s ∈ enumValues) :
    ∃ r, enumLabelProcessVotes enumValues votesData ids = some r ∧
      akeys r = ids ∧
      (∀ sid ∈ ids, ∃ counts, aget? r sid = some counts ∧
        akeys counts = enumValues) ∧
      (∀ sid ∈ ids, sid ∉ votesData.map Prod.fst →
        aget? r sid = some (zeroCounts enumValues)) := by
  have hinit_inv : ∀ sid2 counts,
      aget? (ids.map (fun sid =>
        (sid, enumValues.map (fun v => (v, (0 : ℤ)))))) sid2 = some counts →
      akeys counts = enumValues := by
    intro sid2 counts hc
    have hm := mem_of_aget?_eq_some hc
    rw [List.mem_map] at hm
    obtain ⟨sid3, _, heq⟩ := hm
    simp only [Prod.mk.injEq] at heq
    rw [← heq.2]
    exact akeys_map_keys _ _
  have hd : ∀ entry ∈ votesData,
      entry.1 ∈ akeys (ids.map (fun sid =>
        (sid, enumValues.map (fun v => (v, (0 : ℤ)))))) ∧
      ∀ pv ∈ entry.2, ∃ s, aget? pv.2 "vote" = some (JsonVal.str s) ∧
        s ∈ enumValues := by
    intro entry he
    exact ⟨by rw [akeys_map_keys]; exact hsub entry he, hvals entry he⟩
  obtain ⟨r, hr, hk, hinv, huntouched⟩ :=
    enumOuterFold_eq enumValues votesData _ hinit_inv hd
  have hkeys : akeys r = ids := by rw [hk, akeys_map_keys]
  refine ⟨r, hr, hkeys, ?_, ?_⟩
  · intro sid hsid
    have hhas : ahas r sid = true := by
      rw [ahas_iff_mem_akeys, hkeys]
      exact hsid
    have hcs : (aget? r sid).isSome := by
      rw [← ahas_iff_aget?_isSome]
      exact hhas
    obtain ⟨counts, hc⟩ := Option.isSome_iff_exists.mp hcs
    exact ⟨counts, hc, hinv sid counts hc⟩
  · intro sid hsid hnot
    rw [huntouched sid hnot,
      aget?_map_self_of_mem (fun _ => enumValues.map (fun v => (v, (0 : ℤ))))
        hsid]
    rfl

/-- `ScoreLabel.process_votes` over schema-valid recorded data (every
stored vote value is an integer): it succeeds, its keys are exactly the
eligible ids, and each eligible id maps to `None` when it has no scores
and to the rounded arithmetic mean of its scores otherwise. -/
theorem scoreLabelProcessVotes_eq (votesData : LabelVotesData)
    (ids : List String)
    (hvals : ∀ entry ∈ votesData, ∀ pv ∈ entry.2,
      ∃ n, aget? pv.2 "vote" = some (JsonVal.int n)) :
    ∃ r, scoreLabelProcessVotes votesData ids = some r ∧
      akeys r = ids ∧
      ∀ sid ∈ ids, aget? r sid = some (
        if (submissionScores votesData sid).isEmpty then none
        else some (pyRound3Milli (submissionScores votesData sid).sum
          ((submissionScores votesData sid).length : ℤ))) := by
  have hmain : scoreLabelProcessVotes votesData ids =
      some (ids.map (fun sid => (sid,
        if (submissionScores votesData sid).isEmpty then none
        else some (pyRound3Milli (submissionScores votesData sid).sum
          ((submissionScores votesData sid).length : ℤ))))) := by
    unfold scoreLabelProcessVotes
    apply mapM_some_of_forall
    intro sid _
    have hext : ((aget? votesData sid).getD []).mapM (fun pv =>
        match aget? pv.2 "vote" with
        | some (JsonVal.int n) => some n
        | _ => none) = some (submissionScores votesData sid) := by
      unfold submissionScores
      apply mapM_some_of_forall _
        (fun pv : String × Payload => voteIntValue pv.2)
      intro pv hpv
      cases hget : aget? votesData sid with
      | none => rw [hget] at hpv; cases hpv
      | some votes =>
          rw [hget] at hpv
          simp only [Option.getD_some] at hpv
          have hment : (sid, votes) ∈ votesData := mem_of_aget?_eq_some hget
          obtain ⟨n, hn⟩ := hvals (sid, votes) hment pv hpv
          rw [hn]
          simp [voteIntValue, hn]
    dsimp only
    rw [hext]
    rfl
  refine ⟨_, hmain, akeys_map_keys _ ids, ?_⟩
  intro sid hsid
  exact aget?_map_self_of_mem _ hsid

theorem scoreCompareApplyVote_eq (indexMap : List (ℤ × String)) :
    ∀ (items : List (String × JsonVal)) (totals : List (String × ℤ)),
      (∀ kv ∈ items, ∃ i sid n, parseSubmissionKey kv.1 = some i ∧
        aget? indexMap i = some sid ∧ kv.2 = JsonVal.int n ∧
        sid ∈ akeys totals) →
      ∃ totals2, scoreCompareApplyVote indexMap items totals = some totals2 ∧
        akeys totals2 = akeys totals := by
  intro items
  induction items with
  | nil => intro totals _; exact ⟨totals, rfl, rfl⟩
  | cons kv rest ih =>
      intro totals h
      obtain ⟨i, sid, n, hp, hm, hn, hmem⟩ := h kv (by simp)
      have hhas : ahas totals sid = true := (ahas_iff_mem_akeys _ _).mpr hmem
      have hb : (abump totals sid n).isSome := (abump_isSome_iff _ _ _).mpr hhas
      obtain ⟨t1, ht1⟩ := Option.isSome_iff_exists.mp hb
      have hk1 : akeys t1 = akeys totals := akeys_abump ht1
      obtain ⟨t2, ht2, hk2⟩ := ih t1 (by
        intro kv2 hkv
        obtain ⟨i2, sid2, n2, hp2, hm2, hn2, hmem2⟩ := h kv2 (by simp [hkv])
        exact ⟨i2, sid2, n2, hp2, hm2, hn2, by rw [hk1]; exact hmem2⟩)
      refine ⟨t2, ?_, by rw [hk2, hk1]⟩
      simp [scoreCompareApplyVote, hp, hm, hn, ht1, ht2]

theorem scoreVotersFold_eq (indexMap : List (ℤ × String)) :
    ∀ (data : CompareVotesData) (totals : List (String × ℤ)) (c : ℕ),
      (∀ pv ∈ data, ∃ fields, aget? pv.2 "vote" = some (JsonVal.obj fields) ∧
        ∀ kv ∈ fields, ∃ i sid n, parseSubmissionKey kv.1 = some i ∧
          aget? indexMap i = some sid ∧ kv.2 = JsonVal.int n ∧
          sid ∈ akeys totals) →
      ∃ totals2, data.foldlM (scoreVoterStep indexMap) (totals, c) =
          some (totals2, c + data.length) ∧
        akeys totals2 = akeys totals := by
  intro data
  induction data with
  | nil => intro totals c _; exact ⟨totals, by simp, rfl⟩
  | cons pv rest ih =>
      intro totals c h
      obtain ⟨fields, hvote, hfields⟩ := h pv (by simp)
      obtain ⟨t1, ht1, hk1⟩ := scoreCompareApplyVote_eq indexMap fields totals
        hfields
      obtain ⟨t2, ht2, hk2⟩ := ih t1 (c + 1) (by
        intro pv2 hp
        obtain ⟨fields2, hv2, hf2⟩ := h pv2 (by simp [hp])
        refine ⟨fields2, hv2, ?_⟩
        intro kv2 hkv
        obtain ⟨i2, sid2, n2, hp2, hm2, hn2, hmem2⟩ := hf2 kv2 hkv
        exact ⟨i2, sid2, n2, hp2, hm2, hn2, by rw [hk1]; exact hmem2⟩)
      have hstep : scoreVoterStep indexMap (totals, c) pv = some (t1, c + 1) := by
        simp [scoreVoterStep, hvote, ht1]
      refine ⟨t2, ?_, by rw [hk2, hk1]⟩
      rw [List.foldlM_cons, hstep]
      simp only [Option.bind_eq_bind, Option.some_bind]
      rw [ht2]
      simp only [List.length_cons, Option.some.injEq, Prod.mk.injEq, true_and]
      omega

/-- `ScoreCompare.process_votes` with at least one voter and votes whose
scored keys all map to eligible submissions: it succeeds and every
eligible submission id has an aggregate entry. -/
theorem scoreCompareProcessVotes_covers (indexMap : List (ℤ × String))
    (data : CompareVotesData) (ids : List String)
    (hnd : ids.Nodup) (hne : data ≠ [])
    (hdata : ∀ pv ∈ data, ∃ fields,
      aget? pv.2 "vote" = some (JsonVal.obj fields) ∧
      ∀ kv ∈ fields, ∃ i sid n, parseSubmissionKey kv.1 = some i ∧
        aget? indexMap i = some sid ∧ kv.2 = JsonVal.int n ∧ sid ∈ ids) :
    ∃ r, scoreCompareProcessVotes indexMap data ids = some r ∧
      ∀ sid ∈ ids, ∃ v, aget? r sid = some v := by
  have hkeys0 : akeys (ids.map (fun sid => (sid, (0 : ℤ)))) = ids :=
    akeys_map_keys _ _
  have hdata2 : ∀ pv ∈ data, ∃ fields,
      aget? pv.2 "vote" = some (JsonVal.obj fields) ∧
      ∀ kv ∈ fields, ∃ i sid n, parseSubmissionKey kv.1 = some i ∧
        aget? indexMap i = some sid ∧ kv.2 = JsonVal.int n ∧
        sid ∈ akeys (ids.map (fun sid => (sid, (0 : ℤ)))) := by
    intro pv hpv
    obtain ⟨fields, hv, hf⟩ := hdata pv hpv
    refine ⟨fields, hv, ?_⟩
    intro kv hkv
    obtain ⟨i, sid, n, hp, hm, hn, hmem⟩ := hf kv hkv
    exact ⟨i, sid, n, hp, hm, hn, by rw [hkeys0]; exact hmem⟩
  obtain ⟨totals2, hfold, hkeys2⟩ :=
    scoreVotersFold_eq indexMap data (ids.map (fun sid => (sid, (0 : ℤ)))) 0
      hdata2
  have hnd2 : (akeys totals2).Nodup := by rw [hkeys2, hkeys0]; exact hnd
  have hvc : data.length ≠ 0 := fun h0 => hne (List.length_eq_zero.mp h0)
  obtain ⟨r, hsort, hlook, _⟩ := compareSortRound_eq totals2 data.length hnd2 hvc
  refine ⟨r, ?_, ?_⟩
  · unfold scoreCompareProcessVotes
    rw [hfold]
    simp only [Option.bind_eq_bind, Option.some_bind]
    simpa [Nat.zero_add] using hsort
  · intro sid hsid
    have hhas : ahas totals2 sid = true := by
      rw [ahas_iff_mem_akeys, hkeys2, hkeys0]
      exact hsid
    have hcs : (aget? totals2 sid).isSome := by
      rw [← ahas_iff_aget?_isSome]
      exact hhas
    obtain ⟨total, ht⟩ := Option.isSome_iff_exists.mp hcs
    refine ⟨pyRound3Milli total (data.length : ℤ), ?_⟩
    rw [hlook sid, ht]
    rfl

/-- C1 counterexample: with one eligible submission and no recorded
votes, `RankingCompare.process_votes` divides by the zero voter count
(`ZeroDivisionError`) instead of producing an aggregate — so no entry
exists for the eligible id at all. -/
theorem ranking_aggregate_missing_on_zero_voters :
    rankingCompareProcessVotes (submissionIndexMap ["submission1"]) []
      ["submission1"] = none := rfl

/-- C1 (amended): every voting method's aggregate contains an entry for
every eligible submission id, with the method's "no data" value for
ids with no votes — zero-filled counts for `EnumLabel`/`YesNoLabel`,
`None` for `ScoreLabel` — for the label methods over any well-formed
recorded data; for the compare methods (`RankingCompare`,
`ScoreCompare`) this holds provided at least one vote was recorded
(with zero recorded votes and a nonempty eligible set their reduction
raises `ZeroDivisionError` instead), every recorded vote references
only mapped, eligible submissions, and the eligible ids are distinct. -/
theorem aggregate_covers_eligible_ids :
    (∀ (enumValues : List String) (votesData : LabelVotesData)
      (ids : List String),
      (∀ entry ∈ votesData, entry.1 ∈ ids) →
      (∀ entry ∈ votesData, ∀ pv ∈ entry.2,
        ∃ s, aget? pv.2 "vote" = some (JsonVal.str s) ∧ s ∈ enumValues) →
      ∃ r, enumLabelProcessVotes enumValues votesData ids = some r ∧
        (∀ sid ∈ ids, ∃ counts, aget? r sid = some counts) ∧
        (∀ sid ∈ ids, sid ∉ votesData.map Prod.fst →
          aget? r sid = some (zeroCounts enumValues))) ∧
    (∀ (votesData : LabelVotesData) (ids : List String),
      (∀ entry ∈ votesData, ∀ pv ∈ entry.2,
        ∃ n, aget? pv.2 "vote" = some (JsonVal.int n)) →
      ∃ r, scoreLabelProcessVotes votesData ids = some r ∧
        (∀ sid ∈ ids, ∃ v, aget? r sid = some v) ∧
        (∀ sid ∈ ids, sid ∉ votesData.map Prod.fst →
          aget? r sid = some none)) ∧
    (∀ (indexMap : List (ℤ × String)) (data : CompareVotesData)
      (ids : List String),
      ids.Nodup → data ≠ [] →
      (∀ pv ∈ data, ∃ items, aget? pv.2 "vote" = some (JsonVal.arr items) ∧
        ∀ it ∈ items, ∃ n sid, it = JsonVal.int n ∧
          aget? indexMap n = some sid ∧ sid ∈ ids) →
      ∃ r, rankingCompareProcessVotes indexMap data ids = some r ∧
        ∀ sid ∈ ids, ∃ v, aget? r sid = some v) ∧
    (∀ (indexMap : List (ℤ × String)) (data : CompareVotesData)
      (ids : List String),
      ids.Nodup → data ≠ [] →
      (∀ pv ∈ data, ∃ fields,
        aget? pv.2 "vote" = some (JsonVal.obj fields) ∧
        ∀ kv ∈ fields, ∃ i sid n, parseSubmissionKey kv.1 = some i ∧
          aget? indexMap i = some sid ∧ kv.2 = JsonVal.int n ∧ sid ∈ ids) →
      ∃ r, scoreCompareProcessVotes indexMap data ids = some r ∧
        ∀ sid ∈ ids, ∃ v, aget? r sid = some v) := by
  refine ⟨?_, ?_, ?_, ?_⟩
  · intro enumValues votesData ids hsub hvals
    obtain ⟨r, hr, _, hpres, hzero⟩ :=
      enumLabelProcessVotes_eq enumValues votesData ids hsub hvals
    exact ⟨r, hr,
      fun sid hs => (hpres sid hs).imp (fun c hc => hc.1), hzero⟩
  · intro votesData ids hvals
    obtain ⟨r, hr, _, hlook⟩ := scoreLabelProcessVotes_eq votesData ids hvals
    refine ⟨r, hr, fun sid hs => ⟨_, hlook sid hs⟩, ?_⟩
    intro sid hs hnot
    have hnone : aget? votesData sid = none :=
      aget?_eq_none_of_not_ahas
        (fun hh => hnot ((ahas_iff_mem_akeys votesData sid).mp hh))
    have hscores : submissionScores votesData sid = [] := by
      unfold submissionScores
      rw [hnone]
      rfl
    rw [hlook sid hs, hscores]
    rfl
  · intro indexMap data ids hnd hne hdata
    obtain ⟨r, hr, hlook, _⟩ :=
      rankingProcessVotes_eq indexMap data ids hnd hne hdata
    exact ⟨r, hr, fun sid hs => ⟨_, hlook sid hs⟩⟩
  · intro indexMap data ids hnd hne hdata
    exact scoreCompareProcessVotes_covers indexMap data ids hnd hne hdata

theorem aggregate_covers_eligible_ids_witness :
    enumLabelProcessVotes ["yes", "no"]
      [("s1", [("p1", [("vote", JsonVal.str "yes")])])] ["s1", "s2"] =
      some [("s1", [("yes", 1), ("no", 0)]), ("s2", [("yes", 0), ("no", 0)])] ∧
    (∃ r, enumLabelProcessVotes ["yes", "no"]
        [("s1", [("p1", [("vote", JsonVal.str "yes")])])] ["s1", "s2"] =
        some r ∧
      (∀ sid ∈ (["s1", "s2"] : List String), ∃ counts,
        aget? r sid = some counts) ∧
      (∀ sid ∈ (["s1", "s2"] : List String),
        sid ∉ ([("s1", [("p1", [("vote", JsonVal.str "yes")])])] :
          LabelVotesData).map Prod.fst →
        aget? r sid = some (zeroCounts ["yes", "no"]))) ∧
    (∃ r, scoreLabelProcessVotes
        [("s1", [("p1", [("vote", JsonVal.int 3)]),
                 ("p2", [("vote", JsonVal.int 4)])])] ["s1", "s2"] = some r ∧
      (∀ sid ∈ (["s1", "s2"] : List String), ∃ v, aget? r sid = some v) ∧
      (∀ sid ∈ (["s1", "s2"] : List String),
        sid ∉ ([("s1", [("p1", [("vote", JsonVal.int 3)]),
                        ("p2", [("vote", JsonVal.int 4)])])] :
          LabelVotesData).map Prod.fst →
        aget? r sid = some none)) ∧
    (∃ r, rankingCompareProcessVotes (submissionIndexMap ["s1", "s2"])
        [("p1", [("vote", JsonVal.arr [JsonVal.int 1, JsonVal.int 2])])]
        ["s1", "s2"] = some r ∧
      ∀ sid ∈ (["s1", "s2"] : List String), ∃ v, aget? r sid = some v) ∧
    (∃ r, scoreCompareProcessVotes (submissionIndexMap ["s1", "s2"])
        [("p1", [("vote", JsonVal.obj
          [("submission_1", JsonVal.int 3),
           ("submission_2", JsonVal.int 5)])])]
        ["s1", "s2"] = some r ∧
      ∀ sid ∈ (["s1", "s2"] : List String), ∃ v, aget? r sid = some v) := by
  refine ⟨rfl, ?_, ?_, ?_, ?_⟩
  · exact aggregate_covers_eligible_ids.1 ["yes", "no"]
      [("s1", [("p1", [("vote", JsonVal.str "yes")])])] ["s1", "s2"]
      (by
        intro entry he
        simp at he
        subst he
        simp)
      (by
        intro entry he pv hp
        simp at he
        subst he
        simp at hp
        subst hp
        exact ⟨"yes", rfl, by simp⟩)
  · exact aggregate_covers_eligible_ids.2.1
      [("s1", [("p1", [("vote", JsonVal.int 3)]),
               ("p2", [("vote", JsonVal.int 4)])])] ["s1", "s2"]
      (by
        intro entry he pv hp
        simp at he
        subst he
        simp at hp
        rcases hp with rfl | rfl
        · exact ⟨3, rfl⟩
        · exact ⟨4, rfl⟩)
  · exact aggregate_covers_eligible_ids.2.2.1 (submissionIndexMap ["s1", "s2"])
      [("p1", [("vote", JsonVal.arr [JsonVal.int 1, JsonVal.int 2])])]
      ["s1", "s2"] (by decide) (List.cons_ne_nil _ _)
      (by
        intro pv hp
        simp at hp
        subst hp
        refine ⟨[JsonVal.int 1, JsonVal.int 2], rfl, ?_⟩
        intro it hit
        simp at hit
        rcases hit with rfl | rfl
        · exact ⟨1, "s1", rfl, rfl, by simp⟩
        · exact ⟨2, "s2", rfl, rfl, by simp⟩)
  · exact aggregate_covers_eligible_ids.2.2.2 (submissionIndexMap ["s1", "s2"])
      [("p1", [("vote", JsonVal.obj
        [("submission_1", JsonVal.int 3),
         ("submission_2", JsonVal.int 5)])])]
      ["s1", "s2"] (by decide) (List.cons_ne_nil _ _)
      (by
        intro pv hp
        simp at hp
        subst hp
        refine ⟨[("submission_1", JsonVal.int 3),
                 ("submission_2", JsonVal.int 5)], rfl, ?_⟩
        intro kv hkv
        simp at hkv
        rcases hkv with rfl | rfl
        · exact ⟨1, "s1", 3, rfl, rfl, rfl, by simp⟩
        · exact ⟨2, "s2", 5, rfl, rfl, rfl, by simp⟩)

/-- C5: over schema-valid recorded data, `ScoreLabel.process_votes` maps
each eligible submission with no votes to the null "no data" average
(`None`, never zero), and each submission with votes to the arithmetic
mean of its accepted numeric votes rounded to 3 decimal places (in
thousandths here). -/
theorem score_label_mean_and_null_average (votesData : LabelVotesData)
    (ids : List String)
    (hvals : ∀ entry ∈ votesData, ∀ pv ∈ entry.2,
      ∃ n, aget? pv.2 "vote" = some (JsonVal.int n)) :
    ∃ r, scoreLabelProcessVotes votesData ids = some r ∧
      ∀ sid ∈ ids,
        (submissionScores votesData sid = [] → aget? r sid = some none) ∧
        (submissionScores votesData sid ≠ [] →
          aget? r sid = some (some (pyRound3Milli
            (submissionScores votesData sid).sum
            ((submissionScores votesData sid).length : ℤ)))) := by
  obtain ⟨r, hr, _, hlook⟩ := scoreLabelProcessVotes_eq votesData ids hvals
  refine ⟨r, hr, ?_⟩
  intro sid hs
  constructor
  · intro hempty
    rw [hlook sid hs, hempty]
    rfl
  · intro hne
    rw [hlook sid hs,
      if_neg (by simpa [List.isEmpty_iff] using hne)]

theorem score_label_mean_and_null_average_witness :
    scoreLabelProcessVotes
      [("s1", [("p1", [("vote", JsonVal.int 3)]),
               ("p2", [("vote", JsonVal.int 4)])])] ["s1", "s2"] =
      some [("s1", some 3500), ("s2", none)] ∧
    (∃ r, scoreLabelProcessVotes
        [("s1", [("p1", [("vote", JsonVal.int 3)]),
                 ("p2", [("vote", JsonVal.int 4)])])] ["s1", "s2"] = some r ∧
      ∀ sid ∈ (["s1", "s2"] : List String),
        (submissionScores
          [("s1", [("p1", [("vote", JsonVal.int 3)]),
                   ("p2", [("vote", JsonVal.int 4)])])] sid = [] →
          aget? r sid = some none) ∧
        (submissionScores
          [("s1", [("p1", [("vote", JsonVal.int 3)]),
                   ("p2", [("vote", JsonVal.int 4)])])] sid ≠ [] →
          aget? r sid = some (some (pyRound3Milli
            (submissionScores
              [("s1", [("p1", [("vote", JsonVal.int 3)]),
                       ("p2", [("vote", JsonVal.int 4)])])] sid).sum
            ((submissionScores
              [("s1", [("p1", [("vote", JsonVal.int 3)]),
                       ("p2", [("vote", JsonVal.int 4)])])] sid).length : ℤ))))) := by
  refine ⟨rfl, ?_⟩
  exact score_label_mean_and_null_average
    [("s1", [("p1", [("vote", JsonVal.int 3)]),
             ("p2", [("vote", JsonVal.int 4)])])] ["s1", "s2"]
    (by
      intro entry he pv hp
      simp at he
      subst he
      simp at hp
      rcases hp with rfl | rfl
      · exact ⟨3, rfl⟩
      · exact ⟨4, rfl⟩)

end Ciwa
